import Mathlib

/-!
# NanoTekSpice.rs — verification of the simulation engine against its spec

A shallow embedding of the NanoTekSpice digital-circuit simulator
(`src/nts/components/tristate.rs`, `src/pin/pin.rs`, `src/pin/container.rs`,
`src/components/...`, `src/circuit/mod.rs`) and proofs about it.

Modelling conventions:
* Rust `Tick` and `PinNumber` are `usize`; they become `Nat`.
* Interior mutability (`Cell`, `RefCell`) becomes explicit state passing: the
  set of live components is a `World` (a list indexed by component id), and
  the demand-driven evaluation threads the `World` through every call.
* Rust panics (`panic!`, `.unwrap()`, `.expect(..)`) become `Option.none`.
* The recursion of the engine (input pins pull peers, peers pull their own
  peers) is not structurally terminating, so the interpreter takes fuel;
  fuel `0` returns `none`.  The Rust evaluation is the behaviour at any
  sufficiently large fuel.
* `HashSet<PinLink>` / `HashMap<PinNumber, _>` iteration order is
  unspecified in Rust; the model fixes a list order per pin / container.
  The circuit-level iteration order over components (also unspecified) is
  kept as an explicit parameter, because one claim quantifies over it.
-/

/-! ## Tristate (`src/nts/components/tristate.rs`) -/

/-- `enum Tristate { State(bool), Undefined }`. -/
inductive Tristate where
  | state : Bool → Tristate
  | undefined : Tristate
deriving DecidableEq, Repr

/-- `Tristate::State(false)`, the LOW value (`false.into()` in the source). -/
def Tristate.low : Tristate := .state false

/-- `Tristate::State(true)`, the HIGH value. -/
def Tristate.high : Tristate := .state true

/-- `impl Default for Tristate` returns `Undefined`. -/
def Tristate.default : Tristate := .undefined

/-- `enum ParseTristateError { UnknownValue(String) }`. -/
inductive ParseTristateError where
  | unknownValue : String → ParseTristateError
deriving DecidableEq, Repr

/-- `impl FromStr for Tristate`: only `"0"`, `"1"`, `"U"` parse. -/
def Tristate.from_str (s : String) : Except ParseTristateError Tristate :=
  match s with
  | "0" => .ok (.state false)
  | "1" => .ok (.state true)
  | "U" => .ok .undefined
  | _ => .error (.unknownValue s)

/-- `impl Display for Tristate`. -/
def Tristate.render : Tristate → String
  | .state false => "0"
  | .state true => "1"
  | .undefined => "U"

/-- `impl BitOr for Tristate`, with the source's match-arm order. -/
def Tristate.tor : Tristate → Tristate → Tristate
  | .state l, .state r => .state (l || r)
  | .state true, _ => .state true
  | _, .state true => .state true
  | _, _ => .undefined

/-- `impl BitAnd for Tristate`, with the source's match-arm order. -/
def Tristate.tand : Tristate → Tristate → Tristate
  | .state l, .state r => .state (l && r)
  | .state false, _ => .state false
  | _, .state false => .state false
  | _, _ => .undefined

/-- `impl BitXor for Tristate`: any `Undefined` operand gives `Undefined`. -/
def Tristate.txor : Tristate → Tristate → Tristate
  | .state l, .state r => .state (Bool.xor l r)
  | _, _ => .undefined

/-- `impl Not for Tristate`. -/
def Tristate.tnot : Tristate → Tristate
  | .state b => .state (!b)
  | .undefined => .undefined

/-! ## Pins (`src/pin/pin.rs`)

A `PinLink` is a weak reference to a peer component plus a pin number; the
model names components by their index in the `World` list, and a dangling
index plays the role of an expired weak reference. -/

/-- `struct PinLink { component: Weak<dyn Component>, pin: PinNumber }`. -/
structure PinLink where
  component : Nat
  pin : Nat
deriving DecidableEq, Repr

/-- `enum PinState { NeverComputed, Available(Tick), Computing(Tick) }`.
`PinContainerState` in `container.rs` is a second, identical enum; the model
shares one type. -/
inductive PinState where
  | neverComputed : PinState
  | available : Nat → PinState
  | computing : Nat → PinState
deriving DecidableEq, Repr

/-- The fields of `UnidirectionalInputPin` (`input_value`, `input_state`,
`links`); the `HashSet` of links becomes a list in a fixed order. -/
structure InputPinData where
  input_value : Tristate
  input_state : PinState
  links : List PinLink
deriving DecidableEq, Repr

/-- `UnidirectionalInputPin::new()`: every field `Default::default()`, so the
cached value starts as `Tristate::default()` and the state as
`NeverComputed`. -/
def UnidirectionalInputPin.new : InputPinData :=
  { input_value := Tristate.default, input_state := .neverComputed, links := [] }

/-- `UnidirectionalInputPin::compute_input()`: return the cached value. -/
def InputPinData.compute_input (d : InputPinData) : Tristate := d.input_value

/-! ## Pin containers and components (`src/pin/container.rs`,
`src/components/...`)

Only the shapes the concrete catalog uses are modelled: unidirectional input
pins, manual (`OutputComputationMethod::Manual`) output pins whose cell the
owner's simulate body writes, and the floating UNDEF outputs that
`PinContainer::new` creates for unspecified pin numbers.  Bidirectional pins
and `Automatic` (composite) outputs are not needed by any claim. -/

/-- One slot of `PinContainer::all_pins`. -/
inductive PinSlot where
  | uInput : InputPinData → PinSlot
  | uOutput : Tristate → PinSlot
  | floating : PinSlot
deriving DecidableEq, Repr

/-- The closed set of two-input gate operators
(`gate_two_inputs_impl!` instantiations in `gates/two_inputs.rs`). -/
inductive GateOp where
  | gand : GateOp
  | gor : GateOp
  | gxor : GateOp
  | gnand : GateOp
  | gnor : GateOp
deriving DecidableEq, Repr

/-- The closure each gate passes as `$operation`. -/
def GateOp.apply : GateOp → Tristate → Tristate → Tristate
  | .gand, a, b => a.tand b
  | .gor, a, b => a.tor b
  | .gxor, a, b => a.txor b
  | .gnand, a, b => (a.tand b).tnot
  | .gnor, a, b => (a.tor b).tnot

/-- The kind-specific state of a container-owning component:
two-input gates (pins 1,2 in / 3 out), `GateNOT` (pin 1 in / 2 out),
`OutputComponent` (pin 1 in, plus its `result` cell) and `ClockComponent`
(pin 1 out, plus its `value_for_next_tick` cell). -/
inductive CompKind where
  | gate2 : GateOp → CompKind
  | gateNot : CompKind
  | outputComp : Tristate → CompKind
  | clock : Option Tristate → CompKind
deriving DecidableEq, Repr

/-- The `PinContainer` fields the engine reads and writes: the pin map (an
association list keyed by pin number), the per-tick container state, and a
ghost log `runs` recording the ticks at which the simulate body (input-pin
refresh plus driver) actually executed.  The log is instrumentation only:
no branch of the interpreter reads it. -/
structure Container where
  pins : List (Nat × PinSlot)
  state : PinState
  runs : List Nat
deriving DecidableEq, Repr

/-- A live component: either a `PinContainer`-backed component or a
`ConstStateComponent` (`const_component.rs`), which owns no pins. -/
inductive Comp where
  | withPins : CompKind → Container → Comp
  | const : Bool → Comp
deriving DecidableEq, Repr

/-- The set of live components; a component id is an index into the list. -/
abbrev World := List Comp

def getComp (w : World) (cid : Nat) : Option Comp := w[cid]?

/-- Point update of one component (identity when the id is dangling). -/
def modComp (w : World) (cid : Nat) (g : Comp → Comp) : World :=
  match w[cid]? with
  | some x => w.set cid (g x)
  | none => w

/-- Look up a pin slot, as `PinContainer::get_pin_ref`. -/
def Container.getPin (cont : Container) (p : Nat) : Option PinSlot :=
  cont.pins.lookup p

/-- Rewrite the slot of input pin `p` (other slots and pins unchanged). -/
def Container.updInput (cont : Container) (p : Nat) (g : InputPinData → InputPinData) :
    Container :=
  { cont with
    pins := cont.pins.map fun e =>
      match e with
      | (n, .uInput d) => if n = p then (n, .uInput (g d)) else (n, .uInput d)
      | e => e }

/-- Rewrite the cell of manual output pin `p`. -/
def Container.updCell (cont : Container) (p : Nat) (v : Tristate) : Container :=
  { cont with
    pins := cont.pins.map fun e =>
      match e with
      | (n, .uOutput old) => if n = p then (n, .uOutput v) else (n, .uOutput old)
      | e => e }

def getInputPin (w : World) (cid p : Nat) : Option InputPinData :=
  match getComp w cid with
  | some (.withPins _ cont) =>
    match cont.getPin p with
    | some (.uInput d) => some d
    | _ => none
  | _ => none

def getCell (w : World) (cid p : Nat) : Option Tristate :=
  match getComp w cid with
  | some (.withPins _ cont) =>
    match cont.getPin p with
    | some (.uOutput v) => some v
    | _ => none
  | _ => none

def contStateOf (w : World) (cid : Nat) : Option PinState :=
  match getComp w cid with
  | some (.withPins _ cont) => some cont.state
  | _ => none

def modInput (w : World) (cid p : Nat) (g : InputPinData → InputPinData) : World :=
  modComp w cid fun c =>
    match c with
    | .withPins k cont => .withPins k (cont.updInput p g)
    | c => c

def setCell (w : World) (cid p : Nat) (v : Tristate) : World :=
  modComp w cid fun c =>
    match c with
    | .withPins k cont => .withPins k (cont.updCell p v)
    | c => c

def setContState (w : World) (cid : Nat) (st : PinState) : World :=
  modComp w cid fun c =>
    match c with
    | .withPins k cont => .withPins k { cont with state := st }
    | c => c

/-- Entering the simulate body: `self.state.set(Computing(tick))`, plus the
ghost log append marking that the body executes at this tick. -/
def enterBody (w : World) (cid tick : Nat) : World :=
  modComp w cid fun c =>
    match c with
    | .withPins k cont =>
      .withPins k { cont with state := .computing tick, runs := cont.runs ++ [tick] }
    | c => c

/-- `UnidirectionalInputPin::recompute_input_cache` entry:
`self.input_state.set(PinState::Computing(tick))`. -/
def markComputing (w : World) (cid p tick : Nat) : World :=
  modInput w cid p fun d => { d with input_state := .computing tick }

/-- `recompute_input_cache` exit: store the aggregate and become available. -/
def finishPin (w : World) (cid p : Nat) (v : Tristate) (tick : Nat) : World :=
  modInput w cid p fun d => { d with input_value := v, input_state := .available tick }

def setKind (w : World) (cid : Nat) (k : CompKind) : World :=
  modComp w cid fun c =>
    match c with
    | .withPins _ cont => .withPins k cont
    | c => c

/-- `Component::compute(pin)`.  For container components this is
`PinContainer::compute_for_external`: an input pin reports LOW in the
output role, a manual output pin reports its cell, a floating pin reports
UNDEF, an unknown pin number is `InvalidPin` (`none`).  For
`ConstStateComponent` it is the constant on pin 1.  With only manual
outputs this function is pure. -/
def Comp.compute (c : Comp) (p : Nat) : Option Tristate :=
  match c with
  | .const b => if p = 1 then some (.state b) else none
  | .withPins _ cont =>
    match cont.getPin p with
    | some (.uInput _) => some Tristate.low
    | some (.uOutput v) => some v
    | some .floating => some .undefined
    | none => none

/-! ## The demand-driven evaluation engine

The mutually recursive Rust procedures — `Component::simulate`,
`PinContainer::simulate` with its per-kind driver closure,
`UnidirectionalInputPin::simulate` / `recompute_input_cache`,
`PinLink::compute` and `PinContainer::compute_input` — become one fueled
interpreter `run` over a request type, so that the recursion is structural
in the fuel and the kernel can evaluate it on concrete circuits. -/

/-- One pending call of the engine. -/
inductive Req where
  | sim : Nat → Nat → Req
  | allPins : Nat → List Nat → Nat → Req
  | pinSim : Nat → Nat → Nat → Req
  | agg : Nat → Nat → List PinLink → Nat → Tristate → Req
  | link : PinLink → Nat → Req
  | cin : Nat → Nat → Req
  | drv : Nat → Req

/-- The engine.  `none` models a Rust panic (or fuel exhaustion); the
`Tristate` component of the result only carries information for `link`
and `cin` requests, the others return `Tristate.low` as a dummy.

* `sim cid tick` — `Component::simulate(tick)`: `ConstStateComponent` is a
  no-op; a container component runs `PinContainer::simulate(tick, driver)`:
  the `Available`/`Computing` guard, then `Computing(tick)` is entered, all
  input pins are refreshed, the kind's driver body runs, and the container
  becomes `Available(tick)`.
* `allPins cid ps tick` — `PinContainer::simulate_all_inputs`: call
  `InputPin::simulate(tick)` on each input pin among the pin numbers `ps`.
* `pinSim cid p tick` — `UnidirectionalInputPin::simulate(tick)` of pin `p`
  of component `cid`, including the `recompute_input_cache` entry.
* `agg cid p links tick acc` — the aggregation loop of
  `recompute_input_cache`: OR each link's `PinLink::compute(tick)` into
  `acc`; the empty case is the loop exit, which stores the aggregate and
  marks the pin `Available(tick)`.
* `link l tick` — `PinLink::compute`: panic when the weak reference is
  dangling, otherwise peer `simulate(tick)` then peer `compute(pin)`
  (panicking on `InvalidPin`).
* `cin cid p` — `PinContainer::compute_input(p)` as the gate and output
  drivers call it (their `.unwrap()` turns the error cases into panics):
  when the container is `Computing(ct)` first run `pin.simulate(ct)`, then
  return the pin's cached value. -/
def run : Nat → Req → World → Option (World × Tristate)
  | 0, _, _ => none
  | fuel + 1, .sim cid tick, w =>
    match getComp w cid with
    | none => none
    | some (.const _) => some (w, Tristate.low)
    | some (.withPins _kind cont) =>
      match cont.state with
      | .computing ct => if ct = tick then some (w, Tristate.low) else none
      | st =>
        if st = .available tick then some (w, Tristate.low)
        else
          match run fuel (.allPins cid (cont.pins.map Prod.fst) tick) (enterBody w cid tick) with
          | none => none
          | some (w2, _) =>
            match run fuel (.drv cid) w2 with
            | none => none
            | some (w5, _) => some (setContState w5 cid (.available tick), Tristate.low)
  | fuel + 1, .allPins cid ps tick, w =>
    match ps with
    | [] => some (w, Tristate.low)
    | p :: rest =>
      match getInputPin w cid p with
      | none => run fuel (.allPins cid rest tick) w
      | some _ =>
        match run fuel (.pinSim cid p tick) w with
        | none => none
        | some (w1, _) => run fuel (.allPins cid rest tick) w1
  | fuel + 1, .pinSim cid p tick, w =>
    match getInputPin w cid p with
    | none => none
    | some d =>
      match d.input_state with
      | .computing ct => if ct = tick then some (w, Tristate.low) else none
      | st =>
        if st = .available tick then some (w, Tristate.low)
        else run fuel (.agg cid p d.links tick Tristate.low) (markComputing w cid p tick)
  | fuel + 1, .agg cid p links tick acc, w =>
    match links with
    | [] => some (finishPin w cid p acc tick, Tristate.low)
    | l :: rest =>
      match run fuel (.link l tick) w with
      | none => none
      | some (w1, v) => run fuel (.agg cid p rest tick (acc.tor v)) w1
  | fuel + 1, .link l tick, w =>
    match getComp w l.component with
    | none => none
    | some _ =>
      match run fuel (.sim l.component tick) w with
      | none => none
      | some (w1, _) =>
        match (getComp w1 l.component).bind (fun c => c.compute l.pin) with
        | none => none
        | some v => some (w1, v)
  | fuel + 1, .cin cid p, w =>
    match getInputPin w cid p with
    | none => none
    | some _ =>
      match contStateOf w cid with
      | some (.computing ct) =>
        match run fuel (.pinSim cid p ct) w with
        | none => none
        | some (w1, _) =>
          match getInputPin w1 cid p with
          | none => none
          | some d => some (w1, d.compute_input)
      | _ =>
        match getInputPin w cid p with
        | none => none
        | some d => some (w, d.compute_input)
  | fuel + 1, .drv cid, w =>
    match getComp w cid with
    | some (.withPins (.gate2 op) _) =>
      match run fuel (.cin cid 1) w with
      | none => none
      | some (w3, v1) =>
        match run fuel (.cin cid 2) w3 with
        | none => none
        | some (w4, v2) =>
          match getCell w4 cid 3 with
          | none => none
          | some _ => some (setCell w4 cid 3 (op.apply v1 v2), Tristate.low)
    | some (.withPins .gateNot _) =>
      match run fuel (.cin cid 1) w with
      | none => none
      | some (w3, v) =>
        match getCell w3 cid 2 with
        | none => none
        | some _ => some (setCell w3 cid 2 v.tnot, Tristate.low)
    | some (.withPins (.outputComp _) _) =>
      match run fuel (.cin cid 1) w with
      | none => none
      | some (w3, v) => some (setKind w3 cid (.outputComp v), Tristate.low)
    | some (.withPins (.clock pending) _) =>
      match getCell w cid 1 with
      | none => none
      | some cur =>
        match pending with
        | some s => some (setCell (setKind w cid (.clock none)) cid 1 s, Tristate.low)
        | none => some (setCell w cid 1 cur.tnot, Tristate.low)
    | _ => none

/-- `Component::simulate(tick)` on component `cid`, returning the world. -/
def Component.simulate (fuel : Nat) (w : World) (cid tick : Nat) : Option World :=
  (run fuel (.sim cid tick) w).map Prod.fst

/-- `UnidirectionalInputPin::simulate(tick)` on pin `p` of component `cid`. -/
def InputPin.simulate (fuel : Nat) (w : World) (cid p tick : Nat) : Option World :=
  (run fuel (.pinSim cid p tick) w).map Prod.fst

/-- `PinLink::compute(tick)`. -/
def PinLink.compute (fuel : Nat) (w : World) (l : PinLink) (tick : Nat) :
    Option (World × Tristate) :=
  run fuel (.link l tick) w

/-! ## Basic world lemmas -/

theorem length_modComp (w : World) (cid : Nat) (g : Comp → Comp) :
    (modComp w cid g).length = w.length := by
  unfold modComp
  split <;> simp

theorem getComp_modComp_self (w : World) (cid : Nat) (g : Comp → Comp) :
    getComp (modComp w cid g) cid = (getComp w cid).map g := by
  unfold getComp modComp
  cases h : w[cid]? with
  | none => simp [h]
  | some x =>
    have hlt : cid < w.length := by
      by_contra hge
      simp [List.getElem?_eq_none (Nat.le_of_not_lt hge)] at h
    simp [h, List.getElem?_set_self hlt]

theorem getComp_modComp_ne (w : World) (cid e : Nat) (g : Comp → Comp) (h : cid ≠ e) :
    getComp (modComp w cid g) e = getComp w e := by
  unfold getComp modComp
  cases hx : w[cid]? with
  | none => rfl
  | some x => simp [List.getElem?_set_ne h]

theorem length_modInput (w : World) (cid p : Nat) (g : InputPinData → InputPinData) :
    (modInput w cid p g).length = w.length := length_modComp ..

theorem length_setCell (w : World) (cid p : Nat) (v : Tristate) :
    (setCell w cid p v).length = w.length := length_modComp ..

theorem length_setContState (w : World) (cid : Nat) (st : PinState) :
    (setContState w cid st).length = w.length := length_modComp ..

theorem length_enterBody (w : World) (cid tick : Nat) :
    (enterBody w cid tick).length = w.length := length_modComp ..

theorem length_setKind (w : World) (cid : Nat) (k : CompKind) :
    (setKind w cid k).length = w.length := length_modComp ..

/-- Every engine step preserves the set of live components. -/
theorem run_length (fuel : Nat) :
    ∀ (req : Req) (w w1 : World) (v : Tristate),
      run fuel req w = some (w1, v) → w1.length = w.length := by
  induction fuel with
  | zero => intro req w w1 v h; simp [run] at h
  | succ f ih =>
    intro req w w1 v h
    cases req with
    | sim cid tick =>
      rw [run] at h
      split at h
      · exact absurd h (by simp)
      · cases h; rfl
      · rename_i kind cont heq
        split at h
        · split at h
          · cases h; rfl
          · exact absurd h (by simp)
        · split at h
          · cases h; rfl
          · split at h
            · exact absurd h (by simp)
            · rename_i w2 dummy hall
              split at h
              · exact absurd h (by simp)
              · rename_i w5 dummy2 hdrv
                cases h
                rw [length_setContState, ih _ _ _ _ hdrv, ih _ _ _ _ hall, length_enterBody]
    | drv cid =>
      rw [run] at h
      split at h
      · rename_i op x heq
        split at h
        · exact absurd h (by simp)
        · rename_i w3 v1 hc1
          split at h
          · exact absurd h (by simp)
          · rename_i w4 v2 hc2
            split at h
            · exact absurd h (by simp)
            · cases h
              rw [length_setCell, ih _ _ _ _ hc2, ih _ _ _ _ hc1]
      · split at h
        · exact absurd h (by simp)
        · rename_i w3 v1 hc1
          split at h
          · exact absurd h (by simp)
          · cases h
            rw [length_setCell, ih _ _ _ _ hc1]
      · split at h
        · exact absurd h (by simp)
        · rename_i w3 v1 hc1
          cases h
          rw [length_setKind, ih _ _ _ _ hc1]
      · rename_i pending x heq
        split at h
        · exact absurd h (by simp)
        · rename_i cur hcell
          split at h
          · cases h
            rw [length_setCell, length_setKind]
          · cases h
            rw [length_setCell]
      · exact absurd h (by simp)
    | allPins cid ps tick =>
      rw [run.eq_def] at h
      simp only [] at h
      split at h
      · cases h; rfl
      · rename_i p rest
        split at h
        · exact ih _ _ _ _ h
        · split at h
          · exact absurd h (by simp)
          · rename_i wmid dummy hpin
            rw [ih _ _ _ _ h, ih _ _ _ _ hpin]
    | pinSim cid p tick =>
      rw [run] at h
      split at h
      · exact absurd h (by simp)
      · split at h
        · split at h
          · cases h; rfl
          · exact absurd h (by simp)
        · split at h
          · cases h; rfl
          · rw [ih _ _ _ _ h]; exact length_modComp ..
    | agg cid p links tick acc =>
      rw [run.eq_def] at h
      simp only [] at h
      split at h
      · cases h; exact length_modComp ..
      · split at h
        · exact absurd h (by simp)
        · rename_i wmid v1 hlink
          rw [ih _ _ _ _ h, ih _ _ _ _ hlink]
    | link l tick =>
      rw [run] at h
      split at h
      · exact absurd h (by simp)
      · split at h
        · exact absurd h (by simp)
        · rename_i wmid dummy hsim
          split at h
          · exact absurd h (by simp)
          · cases h; exact ih _ _ _ _ hsim
    | cin cid p =>
      rw [run] at h
      split at h
      · exact absurd h (by simp)
      · split at h
        · rename_i ct hst
          split at h
          · exact absurd h (by simp)
          · rename_i wmid dummy hpin
            split at h
            · exact absurd h (by simp)
            · cases h; exact ih _ _ _ _ hpin
        · split at h
          · exact absurd h (by simp)
          · cases h; rfl

/-! ## Claim C4 — the three-valued truth tables -/

instance : Fintype Tristate where
  elems := { Tristate.state false, Tristate.state true, Tristate.undefined }
  complete := by intro x; rcases x with b | _ <;> first | rcases b <;> decide | decide

/-- C4: the Tristate operators satisfy the three-valued truth tables: NOT
maps UNDEF to UNDEF and flips LOW/HIGH; AND yields LOW if either operand is
LOW, else UNDEF if either operand is UNDEF, else HIGH; OR yields HIGH if
either operand is HIGH, else UNDEF if either operand is UNDEF, else LOW;
XOR yields UNDEF if either operand is UNDEF, else the boolean XOR (LOW when
the operands agree, HIGH when they differ). -/
theorem c4_tristate_truth_tables :
    (Tristate.tnot .undefined = .undefined ∧
      Tristate.tnot Tristate.low = Tristate.high ∧
      Tristate.tnot Tristate.high = Tristate.low) ∧
    (∀ a b : Tristate,
      a.tand b =
        if a = Tristate.low ∨ b = Tristate.low then Tristate.low
        else if a = .undefined ∨ b = .undefined then .undefined
        else Tristate.high) ∧
    (∀ a b : Tristate,
      a.tor b =
        if a = Tristate.high ∨ b = Tristate.high then Tristate.high
        else if a = .undefined ∨ b = .undefined then .undefined
        else Tristate.low) ∧
    (∀ a b : Tristate,
      a.txor b =
        if a = .undefined ∨ b = .undefined then .undefined
        else if a = b then Tristate.low else Tristate.high) := by
  refine ⟨by decide, ?_, ?_, ?_⟩ <;> decide

/-! ## Claim C5 — parse/render roundtrip and strictness -/

/-- C5: rendering then parsing is the identity on `Tristate`, and parsing
succeeds exactly on `"0"`, `"1"`, `"U"` — any other string fails with the
parse error carrying that string.  (Success on exactly those three strings
follows because `render` reaches all three.) -/
theorem c5_parse_render (v : Tristate) (s : String)
    (h0 : s ≠ "0") (h1 : s ≠ "1") (hU : s ≠ "U") :
    Tristate.from_str (Tristate.render v) = .ok v ∧
    Tristate.from_str s = .error (.unknownValue s) := by
  constructor
  · cases v with
    | state b => cases b <;> rfl
    | undefined => rfl
  · unfold Tristate.from_str
    split <;> simp_all

/-- Witness for C5 at `v = LOW`, `s = "2"`. -/
theorem c5_parse_render_witness :
    Tristate.from_str (Tristate.render Tristate.low) = .ok Tristate.low ∧
    Tristate.from_str "2" = .error (.unknownValue "2") :=
  c5_parse_render Tristate.low "2" (by decide) (by decide) (by decide)

/-! ## Claim C3 — the value of a freshly constructed input pin

`UnidirectionalInputPin::new()` fills `input_value` with
`Cell::<Tristate>::default()`, and `impl Default for Tristate` returns
`Undefined` — not LOW as the claim states. -/

/-- C3 counterexample: on a freshly constructed input pin on which simulate
has never been called, `compute_input()` does not return LOW. -/
theorem c3_fresh_pin_counterexample :
    UnidirectionalInputPin.new.compute_input ≠ Tristate.low := by decide

/-- C3 (amended): on a freshly constructed input pin on which simulate has
never been called, `compute_input()` returns UNDEF, the `Tristate` default
value. -/
theorem c3_fresh_pin_returns_undef :
    UnidirectionalInputPin.new.compute_input = Tristate.undefined := rfl

/-! ## Claim C6 — mismatched-tick re-entry aborts

Entering `UnidirectionalInputPin::simulate(tick)` while the pin is
`Computing(t')` with `t' ≠ tick`, or `PinContainer::simulate(tick)` while
the container is `Computing(t')` with `t' ≠ tick`, hits the
`panic!("Cyclic pin simulation with different tick ..")` arms; in the model
a panic is `none`, at every fuel. -/

/-- C6: simulating an input pin whose state is `Computing t'`, or a pin
container whose state is `Computing t'`, at a tick `t ≠ t'` panics (`none`),
never recomputing and never returning a world. -/
theorem c6_mismatched_tick_panics (fuel : Nat) (w : World) (cid p t t' : Nat)
    (hne : t ≠ t') :
    (∀ d, getInputPin w cid p = some d → d.input_state = .computing t' →
      InputPin.simulate fuel w cid p t = none) ∧
    (∀ k cont, getComp w cid = some (.withPins k cont) → cont.state = .computing t' →
      Component.simulate fuel w cid t = none) := by
  constructor
  · intro d hd hst
    cases fuel with
    | zero => rfl
    | succ f =>
      unfold InputPin.simulate
      rw [run]
      simp [hd, hst, Ne.symm hne]
  · intro k cont hc hst
    cases fuel with
    | zero => rfl
    | succ f =>
      unfold Component.simulate
      rw [run]
      simp [hc, hst, Ne.symm hne]

/-- A world with one NOT gate whose container and input pin are both stuck
`Computing 0`. -/
def stuckWorld : World :=
  [ .withPins .gateNot
      { pins := [(1, .uInput { input_value := Tristate.default,
                               input_state := .computing 0, links := [] }),
                 (2, .uOutput Tristate.default)],
        state := .computing 0, runs := [0] } ]

/-- Witness for C6: simulating `stuckWorld`'s pin and container at tick 1
(≠ 0) panics. -/
theorem c6_mismatched_tick_panics_witness :
    InputPin.simulate 5 stuckWorld 0 1 1 = none ∧
    Component.simulate 5 stuckWorld 0 1 = none := by
  have h := c6_mismatched_tick_panics 5 stuckWorld 0 1 1 0 (by decide)
  exact ⟨h.1 _ rfl rfl, h.2 _ _ rfl rfl⟩

/-! ## Claim C2 — at most one body execution per tick

A successful `Component::simulate(t)` leaves the component either untouched
(guard return) or `Available(t)`; in both cases every further
`simulate(t)` call returns the world unchanged.  World equality includes
the ghost `runs` log, which grows exactly when the simulation body
executes, so an unchanged world means the body did not run again. -/

/-- C2: after a completed `simulate(t)` call on component `cid` produced
world `w'`, every further `simulate(t)` call at the same tick `t` returns
`w'` unchanged (no input-pin refresh, no driver invocation): the body runs
at most once per tick, however many times `simulate(t)` is called. -/
theorem c2_simulate_idempotent (fuel fuel' : Nat) (w w' : World) (cid t : Nat)
    (h : Component.simulate fuel w cid t = some w') :
    Component.simulate (fuel' + 1) w' cid t = some w' := by
  unfold Component.simulate at h ⊢
  rw [Option.map_eq_some'] at h
  obtain ⟨pr, hrun, hfst⟩ := h
  cases fuel with
  | zero => simp [run] at hrun
  | succ f =>
    rw [run] at hrun
    split at hrun
    · exact absurd hrun (by simp)
    · rename_i b hget
      cases hrun
      simp only [] at hfst
      subst hfst
      rw [run, hget]
      rfl
    · rename_i kind cont hget
      split at hrun
      · rename_i ctv hst
        split at hrun
        · rename_i hct
          cases hrun
          simp only [] at hfst
          subst hfst
          rw [run, hget]
          simp [hst, hct]
        · exact absurd hrun (by simp)
      · rename_i st hnc
        split at hrun
        · rename_i hav
          cases hrun
          simp only [] at hfst
          subst hfst
          rw [run, hget]
          simp [hav]
        · split at hrun
          · exact absurd hrun (by simp)
          · rename_i w2 d2 hall
            split at hrun
            · exact absurd hrun (by simp)
            · rename_i w5 d5 hdrv
              cases hrun
              subst hfst
              have hlt : cid < w.length := by
                by_contra hge
                unfold getComp at hget
                simp [List.getElem?_eq_none (Nat.le_of_not_lt hge)] at hget
              have hlen5 : w5.length = w.length := by
                rw [run_length f _ _ _ _ hdrv, run_length f _ _ _ _ hall, length_enterBody]
              cases hx : getComp w5 cid with
              | none =>
                exfalso
                unfold getComp at hx
                rw [List.getElem?_eq_none_iff] at hx
                omega
              | some x =>
                cases x with
                | const b =>
                  have hget' : getComp (setContState w5 cid (.available t)) cid =
                      some (.const b) := by
                    unfold setContState
                    rw [getComp_modComp_self, hx]
                    rfl
                  rw [run]
                  simp [hget']
                | withPins k c =>
                  have hget' : getComp (setContState w5 cid (.available t)) cid =
                      some (.withPins k { c with state := .available t }) := by
                    unfold setContState
                    rw [getComp_modComp_self, hx]
                    rfl
                  rw [run]
                  simp [hget']

/-- A world with a single clock component holding LOW. -/
def c2World : World :=
  [ .withPins (.clock none)
      { pins := [(1, .uOutput Tristate.low)], state := .neverComputed, runs := [] } ]

/-- `c2World` after one simulate at tick 1: the clock flipped to HIGH. -/
def c2World' : World :=
  [ .withPins (.clock none)
      { pins := [(1, .uOutput Tristate.high)], state := .available 1, runs := [1] } ]

set_option maxRecDepth 8000 in
/-- Witness for C2: a first simulate of the clock executes the body
(`c2World'` records run tick 1 and the flipped cell), and a second
simulate at tick 1 returns `c2World'` unchanged. -/
theorem c2_simulate_idempotent_witness :
    Component.simulate 3 c2World 0 1 = some c2World' ∧
    Component.simulate 1 c2World' 0 1 = some c2World' :=
  ⟨by decide, c2_simulate_idempotent 3 0 c2World c2World' 0 1 (by decide)⟩

/-! ## Read-after-update lemmas -/

theorem lookup_map_keyfix {β : Type} (q : Nat) (l : List (Nat × β)) (f : Nat × β → Nat × β)
    (hf : ∀ e, (f e).1 = e.1) :
    List.lookup q (l.map f) = (List.lookup q l).map (fun s => (f (q, s)).2) := by
  induction l with
  | nil => rfl
  | cons e rest ih =>
    obtain ⟨n, s⟩ := e
    simp only [List.map_cons, List.lookup]
    rw [show f (n, s) = ((f (n, s)).1, (f (n, s)).2) from rfl, hf (n, s)]
    by_cases hq : q = n
    · subst hq
      simp
    · simp only [show (q == n) = false by simp [hq]]
      exact ih

theorem getPin_updInput (cont : Container) (p q : Nat) (g : InputPinData → InputPinData) :
    (cont.updInput p g).getPin q =
      (cont.getPin q).map fun s =>
        match s with
        | .uInput d => .uInput (if q = p then g d else d)
        | s => s := by
  unfold Container.getPin Container.updInput
  rw [lookup_map_keyfix]
  · cases hs : List.lookup q cont.pins with
    | none => rfl
    | some s => cases s <;> simp <;> split <;> rfl
  · intro e
    obtain ⟨n, s⟩ := e
    cases s <;> simp <;> split <;> rfl

theorem getPin_updCell (cont : Container) (p q : Nat) (v : Tristate) :
    (cont.updCell p v).getPin q =
      (cont.getPin q).map fun s =>
        match s with
        | .uOutput old => .uOutput (if q = p then v else old)
        | s => s := by
  unfold Container.getPin Container.updCell
  rw [lookup_map_keyfix]
  · cases hs : List.lookup q cont.pins with
    | none => rfl
    | some s => cases s <;> simp <;> split <;> rfl
  · intro e
    obtain ⟨n, s⟩ := e
    cases s <;> simp <;> split <;> rfl

theorem getInputPin_modInput_self (w : World) (cid p : Nat) (g : InputPinData → InputPinData) :
    getInputPin (modInput w cid p g) cid p = (getInputPin w cid p).map g := by
  unfold getInputPin modInput
  rw [getComp_modComp_self]
  cases hc : getComp w cid with
  | none => rfl
  | some x =>
    cases x with
    | const b => rfl
    | withPins k cont =>
      simp only [Option.map_some']
      rw [getPin_updInput]
      cases hs : cont.getPin p with
      | none => rfl
      | some s => cases s <;> simp

theorem getInputPin_modInput_ne (w : World) (cid p : Nat) (g : InputPinData → InputPinData)
    (cid' p' : Nat) (h : cid' ≠ cid ∨ p' ≠ p) :
    getInputPin (modInput w cid p g) cid' p' = getInputPin w cid' p' := by
  by_cases hcc : cid' = cid
  · subst hcc
    have hp : p' ≠ p := by
      rcases h with h | h
      · exact absurd rfl h
      · exact h
    unfold getInputPin modInput
    rw [getComp_modComp_self]
    cases hc : getComp w cid' with
    | none => rfl
    | some x =>
      cases x with
      | const b => rfl
      | withPins k cont =>
        simp only [Option.map_some']
        rw [getPin_updInput]
        cases hs : cont.getPin p' with
        | none => rfl
        | some s => cases s <;> simp [hp]
  · unfold getInputPin modInput
    rw [getComp_modComp_ne _ _ _ _ (Ne.symm hcc)]

theorem getInputPin_setCell (w : World) (cid p : Nat) (v : Tristate) (cid' p' : Nat) :
    getInputPin (setCell w cid p v) cid' p' = getInputPin w cid' p' := by
  by_cases hcc : cid' = cid
  · subst hcc
    unfold getInputPin setCell
    rw [getComp_modComp_self]
    cases hc : getComp w cid' with
    | none => rfl
    | some x =>
      cases x with
      | const b => rfl
      | withPins k cont =>
        simp only [Option.map_some']
        rw [getPin_updCell]
        cases hs : cont.getPin p' with
        | none => rfl
        | some s => cases s <;> simp
  · unfold getInputPin setCell
    rw [getComp_modComp_ne _ _ _ _ (Ne.symm hcc)]

theorem getInputPin_setContState (w : World) (cid : Nat) (st : PinState) (cid' p' : Nat) :
    getInputPin (setContState w cid st) cid' p' = getInputPin w cid' p' := by
  by_cases hcc : cid' = cid
  · subst hcc
    unfold getInputPin setContState
    rw [getComp_modComp_self]
    cases hc : getComp w cid' with
    | none => rfl
    | some x => cases x <;> rfl
  · unfold getInputPin setContState
    rw [getComp_modComp_ne _ _ _ _ (Ne.symm hcc)]

theorem getInputPin_enterBody (w : World) (cid t : Nat) (cid' p' : Nat) :
    getInputPin (enterBody w cid t) cid' p' = getInputPin w cid' p' := by
  by_cases hcc : cid' = cid
  · subst hcc
    unfold getInputPin enterBody
    rw [getComp_modComp_self]
    cases hc : getComp w cid' with
    | none => rfl
    | some x => cases x <;> rfl
  · unfold getInputPin enterBody
    rw [getComp_modComp_ne _ _ _ _ (Ne.symm hcc)]

theorem getInputPin_setKind (w : World) (cid : Nat) (k : CompKind) (cid' p' : Nat) :
    getInputPin (setKind w cid k) cid' p' = getInputPin w cid' p' := by
  by_cases hcc : cid' = cid
  · subst hcc
    unfold getInputPin setKind
    rw [getComp_modComp_self]
    cases hc : getComp w cid' with
    | none => rfl
    | some x => cases x <;> rfl
  · unfold getInputPin setKind
    rw [getComp_modComp_ne _ _ _ _ (Ne.symm hcc)]

theorem getCell_modInput (w : World) (cid p : Nat) (g : InputPinData → InputPinData)
    (cid' p' : Nat) :
    getCell (modInput w cid p g) cid' p' = getCell w cid' p' := by
  by_cases hcc : cid' = cid
  · subst hcc
    unfold getCell modInput
    rw [getComp_modComp_self]
    cases hc : getComp w cid' with
    | none => rfl
    | some x =>
      cases x with
      | const b => rfl
      | withPins k cont =>
        simp only [Option.map_some']
        rw [getPin_updInput]
        cases hs : cont.getPin p' with
        | none => rfl
        | some s => cases s <;> simp <;> split <;> rfl
  · unfold getCell modInput
    rw [getComp_modComp_ne _ _ _ _ (Ne.symm hcc)]

theorem getCell_setCell_self (w : World) (cid p : Nat) (v : Tristate) :
    getCell (setCell w cid p v) cid p = (getCell w cid p).map (fun _ => v) := by
  unfold getCell setCell
  rw [getComp_modComp_self]
  cases hc : getComp w cid with
  | none => rfl
  | some x =>
    cases x with
    | const b => rfl
    | withPins k cont =>
      simp only [Option.map_some']
      rw [getPin_updCell]
      cases hs : cont.getPin p with
      | none => rfl
      | some s => cases s <;> simp

theorem getCell_setCell_ne (w : World) (cid p : Nat) (v : Tristate) (cid' p' : Nat)
    (h : cid' ≠ cid ∨ p' ≠ p) :
    getCell (setCell w cid p v) cid' p' = getCell w cid' p' := by
  by_cases hcc : cid' = cid
  · subst hcc
    have hp : p' ≠ p := by
      rcases h with h | h
      · exact absurd rfl h
      · exact h
    unfold getCell setCell
    rw [getComp_modComp_self]
    cases hc : getComp w cid' with
    | none => rfl
    | some x =>
      cases x with
      | const b => rfl
      | withPins k cont =>
        simp only [Option.map_some']
        rw [getPin_updCell]
        cases hs : cont.getPin p' with
        | none => rfl
        | some s => cases s <;> simp [hp]
  · unfold getCell setCell
    rw [getComp_modComp_ne _ _ _ _ (Ne.symm hcc)]

theorem getCell_setContState (w : World) (cid : Nat) (st : PinState) (cid' p' : Nat) :
    getCell (setContState w cid st) cid' p' = getCell w cid' p' := by
  by_cases hcc : cid' = cid
  · subst hcc
    unfold getCell setContState
    rw [getComp_modComp_self]
    cases hc : getComp w cid' with
    | none => rfl
    | some x => cases x <;> rfl
  · unfold getCell setContState
    rw [getComp_modComp_ne _ _ _ _ (Ne.symm hcc)]

theorem getCell_enterBody (w : World) (cid t : Nat) (cid' p' : Nat) :
    getCell (enterBody w cid t) cid' p' = getCell w cid' p' := by
  by_cases hcc : cid' = cid
  · subst hcc
    unfold getCell enterBody
    rw [getComp_modComp_self]
    cases hc : getComp w cid' with
    | none => rfl
    | some x => cases x <;> rfl
  · unfold getCell enterBody
    rw [getComp_modComp_ne _ _ _ _ (Ne.symm hcc)]

theorem getCell_setKind (w : World) (cid : Nat) (k : CompKind) (cid' p' : Nat) :
    getCell (setKind w cid k) cid' p' = getCell w cid' p' := by
  by_cases hcc : cid' = cid
  · subst hcc
    unfold getCell setKind
    rw [getComp_modComp_self]
    cases hc : getComp w cid' with
    | none => rfl
    | some x => cases x <;> rfl
  · unfold getCell setKind
    rw [getComp_modComp_ne _ _ _ _ (Ne.symm hcc)]

def getKind (w : World) (cid : Nat) : Option CompKind :=
  match getComp w cid with
  | some (.withPins k _) => some k
  | _ => none

theorem getKind_modInput (w : World) (cid p : Nat) (g : InputPinData → InputPinData)
    (cid' : Nat) :
    getKind (modInput w cid p g) cid' = getKind w cid' := by
  by_cases hcc : cid' = cid
  · subst hcc
    unfold getKind modInput
    rw [getComp_modComp_self]
    cases hc : getComp w cid' with
    | none => rfl
    | some x => cases x <;> rfl
  · unfold getKind modInput
    rw [getComp_modComp_ne _ _ _ _ (Ne.symm hcc)]

theorem getKind_setCell (w : World) (cid p : Nat) (v : Tristate) (cid' : Nat) :
    getKind (setCell w cid p v) cid' = getKind w cid' := by
  by_cases hcc : cid' = cid
  · subst hcc
    unfold getKind setCell
    rw [getComp_modComp_self]
    cases hc : getComp w cid' with
    | none => rfl
    | some x => cases x <;> rfl
  · unfold getKind setCell
    rw [getComp_modComp_ne _ _ _ _ (Ne.symm hcc)]

theorem getKind_setContState (w : World) (cid : Nat) (st : PinState) (cid' : Nat) :
    getKind (setContState w cid st) cid' = getKind w cid' := by
  by_cases hcc : cid' = cid
  · subst hcc
    unfold getKind setContState
    rw [getComp_modComp_self]
    cases hc : getComp w cid' with
    | none => rfl
    | some x => cases x <;> rfl
  · unfold getKind setContState
    rw [getComp_modComp_ne _ _ _ _ (Ne.symm hcc)]

theorem getKind_enterBody (w : World) (cid t : Nat) (cid' : Nat) :
    getKind (enterBody w cid t) cid' = getKind w cid' := by
  by_cases hcc : cid' = cid
  · subst hcc
    unfold getKind enterBody
    rw [getComp_modComp_self]
    cases hc : getComp w cid' with
    | none => rfl
    | some x => cases x <;> rfl
  · unfold getKind enterBody
    rw [getComp_modComp_ne _ _ _ _ (Ne.symm hcc)]

theorem getKind_setKind_self (w : World) (cid : Nat) (k : CompKind) :
    getKind (setKind w cid k) cid = (getKind w cid).map (fun _ => k) := by
  unfold getKind setKind
  rw [getComp_modComp_self]
  cases hc : getComp w cid with
  | none => rfl
  | some x => cases x <;> rfl

theorem getKind_setKind_ne (w : World) (cid : Nat) (k : CompKind) (cid' : Nat)
    (h : cid' ≠ cid) :
    getKind (setKind w cid k) cid' = getKind w cid' := by
  unfold getKind setKind
  rw [getComp_modComp_ne _ _ _ _ (Ne.symm h)]

theorem contStateOf_modInput (w : World) (cid p : Nat) (g : InputPinData → InputPinData)
    (cid' : Nat) :
    contStateOf (modInput w cid p g) cid' = contStateOf w cid' := by
  by_cases hcc : cid' = cid
  · subst hcc
    unfold contStateOf modInput
    rw [getComp_modComp_self]
    cases hc : getComp w cid' with
    | none => rfl
    | some x => cases x <;> rfl
  · unfold contStateOf modInput
    rw [getComp_modComp_ne _ _ _ _ (Ne.symm hcc)]

theorem contStateOf_setCell (w : World) (cid p : Nat) (v : Tristate) (cid' : Nat) :
    contStateOf (setCell w cid p v) cid' = contStateOf w cid' := by
  by_cases hcc : cid' = cid
  · subst hcc
    unfold contStateOf setCell
    rw [getComp_modComp_self]
    cases hc : getComp w cid' with
    | none => rfl
    | some x => cases x <;> rfl
  · unfold contStateOf setCell
    rw [getComp_modComp_ne _ _ _ _ (Ne.symm hcc)]

theorem contStateOf_setKind (w : World) (cid : Nat) (k : CompKind) (cid' : Nat) :
    contStateOf (setKind w cid k) cid' = contStateOf w cid' := by
  by_cases hcc : cid' = cid
  · subst hcc
    unfold contStateOf setKind
    rw [getComp_modComp_self]
    cases hc : getComp w cid' with
    | none => rfl
    | some x => cases x <;> rfl
  · unfold contStateOf setKind
    rw [getComp_modComp_ne _ _ _ _ (Ne.symm hcc)]

theorem contStateOf_setContState_self (w : World) (cid : Nat) (st : PinState) :
    contStateOf (setContState w cid st) cid = (contStateOf w cid).map (fun _ => st) := by
  unfold contStateOf setContState
  rw [getComp_modComp_self]
  cases hc : getComp w cid with
  | none => rfl
  | some x => cases x <;> rfl

theorem contStateOf_setContState_ne (w : World) (cid : Nat) (st : PinState) (cid' : Nat)
    (h : cid' ≠ cid) :
    contStateOf (setContState w cid st) cid' = contStateOf w cid' := by
  unfold contStateOf setContState
  rw [getComp_modComp_ne _ _ _ _ (Ne.symm h)]

theorem contStateOf_enterBody_self (w : World) (cid t : Nat) :
    contStateOf (enterBody w cid t) cid = (contStateOf w cid).map (fun _ => .computing t) := by
  unfold contStateOf enterBody
  rw [getComp_modComp_self]
  cases hc : getComp w cid with
  | none => rfl
  | some x => cases x <;> rfl

theorem contStateOf_enterBody_ne (w : World) (cid t : Nat) (cid' : Nat) (h : cid' ≠ cid) :
    contStateOf (enterBody w cid t) cid' = contStateOf w cid' := by
  unfold contStateOf enterBody
  rw [getComp_modComp_ne _ _ _ _ (Ne.symm h)]

theorem isSome_getInputPin_modInput (w : World) (cid p : Nat)
    (g : InputPinData → InputPinData) (cid' p' : Nat) :
    (getInputPin (modInput w cid p g) cid' p').isSome = (getInputPin w cid' p').isSome := by
  by_cases h1 : cid' = cid
  · by_cases h2 : p' = p
    · subst h1; subst h2
      rw [getInputPin_modInput_self]
      cases getInputPin w cid' p' <;> rfl
    · rw [getInputPin_modInput_ne _ _ _ _ _ _ (Or.inr h2)]
  · rw [getInputPin_modInput_ne _ _ _ _ _ _ (Or.inl h1)]

/-- Engine steps never change which positions are input pins. -/
theorem run_isInputPin (fuel : Nat) :
    ∀ (req : Req) (w w1 : World) (v : Tristate),
      run fuel req w = some (w1, v) →
      ∀ cid p, (getInputPin w1 cid p).isSome = (getInputPin w cid p).isSome := by
  induction fuel with
  | zero => intro req w w1 v h; simp [run] at h
  | succ f ih =>
    intro req w w1 v h cid p
    cases req with
    | sim cid0 tick =>
      rw [run] at h
      split at h
      · exact absurd h (by simp)
      · cases h; rfl
      · rename_i kind cont heq
        split at h
        · split at h
          · cases h; rfl
          · exact absurd h (by simp)
        · split at h
          · cases h; rfl
          · split at h
            · exact absurd h (by simp)
            · rename_i w2 dummy hall
              split at h
              · exact absurd h (by simp)
              · rename_i w5 dummy2 hdrv
                cases h
                rw [getInputPin_setContState, ih _ _ _ _ hdrv, ih _ _ _ _ hall,
                  getInputPin_enterBody]
    | drv cid0 =>
      rw [run] at h
      split at h
      · rename_i op x heq
        split at h
        · exact absurd h (by simp)
        · rename_i w3 v1 hc1
          split at h
          · exact absurd h (by simp)
          · rename_i w4 v2 hc2
            split at h
            · exact absurd h (by simp)
            · cases h
              rw [getInputPin_setCell, ih _ _ _ _ hc2, ih _ _ _ _ hc1]
      · split at h
        · exact absurd h (by simp)
        · rename_i w3 v1 hc1
          split at h
          · exact absurd h (by simp)
          · cases h
            rw [getInputPin_setCell, ih _ _ _ _ hc1]
      · split at h
        · exact absurd h (by simp)
        · rename_i w3 v1 hc1
          cases h
          rw [getInputPin_setKind, ih _ _ _ _ hc1]
      · rename_i pending x heq
        split at h
        · exact absurd h (by simp)
        · rename_i cur hcell
          split at h
          · cases h
            rw [getInputPin_setCell, getInputPin_setKind]
          · cases h
            rw [getInputPin_setCell]
      · exact absurd h (by simp)
    | allPins cid0 ps tick =>
      rw [run.eq_def] at h
      simp only [] at h
      split at h
      · cases h; rfl
      · rename_i p0 rest
        split at h
        · exact ih _ _ _ _ h _ _
        · split at h
          · exact absurd h (by simp)
          · rename_i wmid dummy hpin
            rw [ih _ _ _ _ h, ih _ _ _ _ hpin]
    | pinSim cid0 p0 tick =>
      rw [run] at h
      split at h
      · exact absurd h (by simp)
      · split at h
        · split at h
          · cases h; rfl
          · exact absurd h (by simp)
        · split at h
          · cases h; rfl
          · rw [ih _ _ _ _ h]
            exact isSome_getInputPin_modInput ..
    | agg cid0 p0 links tick acc =>
      rw [run.eq_def] at h
      simp only [] at h
      split at h
      · cases h
        exact isSome_getInputPin_modInput ..
      · split at h
        · exact absurd h (by simp)
        · rename_i wmid v1 hlink
          rw [ih _ _ _ _ h, ih _ _ _ _ hlink]
    | link l tick =>
      rw [run] at h
      split at h
      · exact absurd h (by simp)
      · split at h
        · exact absurd h (by simp)
        · rename_i wmid dummy hsim
          split at h
          · exact absurd h (by simp)
          · cases h; exact ih _ _ _ _ hsim _ _
    | cin cid0 p0 =>
      rw [run] at h
      split at h
      · exact absurd h (by simp)
      · split at h
        · rename_i ct hst
          split at h
          · exact absurd h (by simp)
          · rename_i wmid dummy hpin
            split at h
            · exact absurd h (by simp)
            · cases h; exact ih _ _ _ _ hpin _ _
        · split at h
          · exact absurd h (by simp)
          · cases h; rfl

/-! ## Claim C1 — input aggregation is an OR-fold over peer outputs -/

/-- Spec-side description of one tick's input aggregation, following the
claim's words: visit the linked peers in order, simulate each peer at tick
`t` and collect its computed output value (`PinLink::compute`), returning
the list of collected values.  The source instead threads a single OR
accumulator through the loop (`state |= link.compute(tick)`); the claim is
settled by relating the two. -/
def specPeerReads : Nat → World → List PinLink → Nat → Option (World × List Tristate)
  | 0, _, _, _ => none
  | _ + 1, w, [], _ => some (w, [])
  | fuel + 1, w, l :: rest, tick =>
    match run fuel (.link l tick) w with
    | none => none
    | some (w1, v) =>
      match specPeerReads fuel w1 rest tick with
      | none => none
      | some (w2, vs) => some (w2, v :: vs)

/-- The source's accumulator loop computes the left OR-fold of the
collected peer values, then stores it and marks the pin available. -/
theorem agg_eq_specPeerReads (fuel : Nat) :
    ∀ (w : World) (cid p : Nat) (links : List PinLink) (tick : Nat) (acc : Tristate),
      run fuel (.agg cid p links tick acc) w =
        (specPeerReads fuel w links tick).map
          (fun pr => (finishPin pr.1 cid p (pr.2.foldl Tristate.tor acc) tick, Tristate.low)) := by
  induction fuel with
  | zero => intro w cid p links tick acc; rfl
  | succ f ih =>
    intro w cid p links tick acc
    cases links with
    | nil =>
      rw [run.eq_def, specPeerReads]
      rfl
    | cons l rest =>
      rw [run.eq_def, specPeerReads]
      simp only []
      cases hl : run f (.link l tick) w with
      | none => rfl
      | some pr =>
        obtain ⟨w1, v⟩ := pr
        simp only []
        rw [ih]
        cases hs : specPeerReads f w1 rest tick with
        | none => rfl
        | some pr2 =>
          obtain ⟨w2, vs⟩ := pr2
          simp [List.foldl_cons]

/-- `specPeerReads` also never changes which positions are input pins. -/
theorem specPeerReads_isInputPin (fuel : Nat) :
    ∀ (w w1 : World) (links : List PinLink) (tick : Nat) (vs : List Tristate),
      specPeerReads fuel w links tick = some (w1, vs) →
      ∀ cid p, (getInputPin w1 cid p).isSome = (getInputPin w cid p).isSome := by
  induction fuel with
  | zero => intro w w1 links tick vs h; simp [specPeerReads] at h
  | succ f ih =>
    intro w w1 links tick vs h cid p
    cases links with
    | nil =>
      rw [specPeerReads] at h
      cases h; rfl
    | cons l rest =>
      rw [specPeerReads] at h
      split at h
      · exact absurd h (by simp)
      · rename_i wmid v hl
        split at h
        · exact absurd h (by simp)
        · rename_i pr2 w2 vs2 hs
          cases h
          rw [ih _ _ _ _ _ hs, run_isInputPin _ _ _ _ _ hl]

/-- Inverting `getInputPin`. -/
theorem getInputPin_inv (w : World) (cid p : Nat) (d : InputPinData)
    (h : getInputPin w cid p = some d) :
    ∃ k cont, getComp w cid = some (.withPins k cont) ∧ cont.getPin p = some (.uInput d) := by
  unfold getInputPin at h
  split at h
  · rename_i k cont hc
    split at h
    · rename_i d0 hs
      cases h
      exact ⟨k, cont, hc, hs⟩
    · exact absurd h (by simp)
  · exact absurd h (by simp)

/-- C1: simulating input pin `p` of component `cid` at tick `t` from a
state that is neither `Available(t)` nor `Computing` recomputes the cache:
it succeeds exactly when reading every linked peer's output at tick `t`
succeeds, and then `compute_input` returns the tristate OR over the
collected peer values, starting from LOW (so LOW for an empty link set).
And when the evaluation re-enters this pin while it is already
`Computing(t)` at the same tick `t` (its container mid-simulation), the
re-entrant `PinLink::compute` neither recurses nor recomputes: it returns
the world unchanged and contributes LOW, the value an input pin reports in
the peer-output role. -/
theorem c1_compute_input_or_fold (fuel : Nat) (w : World) (cid p t : Nat)
    (d : InputPinData) (hd : getInputPin w cid p = some d) :
    ((∀ ct, d.input_state ≠ .computing ct) → d.input_state ≠ .available t →
      (specPeerReads fuel (markComputing w cid p t) d.links t = none →
        InputPin.simulate (fuel + 1) w cid p t = none) ∧
      (∀ w1 vs, specPeerReads fuel (markComputing w cid p t) d.links t = some (w1, vs) →
        InputPin.simulate (fuel + 1) w cid p t =
          some (finishPin w1 cid p (vs.foldl Tristate.tor Tristate.low) t) ∧
        (getInputPin (finishPin w1 cid p (vs.foldl Tristate.tor Tristate.low) t) cid p).map
          InputPinData.compute_input = some (vs.foldl Tristate.tor Tristate.low))) ∧
    (d.input_state = .computing t → contStateOf w cid = some (.computing t) →
      PinLink.compute (fuel + 2) w ⟨cid, p⟩ t = some (w, Tristate.low)) := by
  constructor
  · intro hnc hna
    have hsim : InputPin.simulate (fuel + 1) w cid p t =
        ((specPeerReads fuel (markComputing w cid p t) d.links t).map
          (fun pr => (finishPin pr.1 cid p (pr.2.foldl Tristate.tor Tristate.low) t,
            Tristate.low))).map Prod.fst := by
      unfold InputPin.simulate
      rw [run, hd]
      rw [← agg_eq_specPeerReads]
      cases hst : d.input_state with
      | computing ct => exact absurd hst (hnc ct)
      | neverComputed => simp [hst]
      | available t' =>
        have : t' ≠ t := by
          intro he
          exact hna (by rw [hst, he])
        simp [hst, this]
    constructor
    · intro hnone
      rw [hsim, hnone]
      rfl
    · intro w1 vs hsome
      constructor
      · rw [hsim, hsome]
        rfl
      · have hsome1 : (getInputPin w1 cid p).isSome = true := by
          rw [specPeerReads_isInputPin _ _ _ _ _ _ hsome]
          unfold markComputing
          rw [isSome_getInputPin_modInput, hd]
          rfl
        obtain ⟨d1, hd1⟩ := Option.isSome_iff_exists.mp hsome1
        unfold finishPin
        rw [getInputPin_modInput_self, hd1]
        rfl
  · intro hcomp hcont
    obtain ⟨k, cont, hc, hs⟩ := getInputPin_inv w cid p d hd
    have hcst : cont.state = .computing t := by
      unfold contStateOf at hcont
      rw [hc] at hcont
      simpa using hcont
    unfold PinLink.compute
    rw [run]
    simp only [hc]
    rw [run]
    simp only [hc, hcst, if_pos rfl]
    simp [Comp.compute, hc, hs]

def c1PinData : InputPinData :=
  { input_value := Tristate.default, input_state := .neverComputed, links := [⟨0, 1⟩] }

/-- A TRUE constant feeding the input pin of a NOT gate. -/
def c1World : World :=
  [ .const true,
    .withPins .gateNot
      { pins := [(1, .uInput c1PinData), (2, .uOutput Tristate.default)],
        state := .neverComputed, runs := [] } ]

def c1CyclePinData : InputPinData :=
  { input_value := Tristate.default, input_state := .computing 1, links := [] }

/-- A NOT gate caught mid-simulation at tick 1: container and input pin
both `Computing 1`. -/
def c1CycleWorld : World :=
  [ .withPins .gateNot
      { pins := [(1, .uInput c1CyclePinData), (2, .uOutput Tristate.default)],
        state := .computing 1, runs := [1] } ]

set_option maxRecDepth 8000 in
/-- Witness for C1: on `c1World` the fresh aggregation of the NOT gate's
input pin collects the constant's HIGH and stores `OR(LOW, HIGH)`, and on
`c1CycleWorld` a re-entrant `PinLink::compute` of the Computing pin returns
the world unchanged with the value LOW. -/
theorem c1_compute_input_or_fold_witness :
    (InputPin.simulate 4 c1World 1 1 1 =
        some (finishPin (markComputing c1World 1 1 1) 1 1
          ([Tristate.high].foldl Tristate.tor Tristate.low) 1) ∧
      (getInputPin (finishPin (markComputing c1World 1 1 1) 1 1
          ([Tristate.high].foldl Tristate.tor Tristate.low) 1) 1 1).map
        InputPinData.compute_input = some ([Tristate.high].foldl Tristate.tor Tristate.low)) ∧
    PinLink.compute 5 c1CycleWorld ⟨0, 1⟩ 1 = some (c1CycleWorld, Tristate.low) :=
  ⟨((c1_compute_input_or_fold 3 c1World 1 1 1 c1PinData rfl).1
      (by intro ct; simp [c1PinData]) (by simp [c1PinData])).2
      (markComputing c1World 1 1 1) [Tristate.high] (by decide),
    (c1_compute_input_or_fold 3 c1CycleWorld 0 1 1 c1CyclePinData rfl).2 rfl rfl⟩

/-! ## Claim C9 — clock semantics -/

/-- Evaluating `ClockComponent::simulate(tick)` from a not-yet-simulated
state: the guard falls through, the (empty) set of input pins is refreshed,
and the driver either consumes the pending user value into the output cell
or negates the cell; the container ends `Available(tick)`. -/
theorem clock_sim_eval (fuel : Nat) (w : World) (cid t : Nat)
    (pend : Option Tristate) (v : Tristate) (cont : Container)
    (hc : getComp w cid = some (.withPins (.clock pend) cont))
    (hpins : cont.pins = [(1, .uOutput v)])
    (hnc : ∀ ct, cont.state ≠ .computing ct)
    (hna : cont.state ≠ .available t) :
    ∃ w', Component.simulate (fuel + 3) w cid t = some w' ∧
      getComp w' cid = some (.withPins (.clock none)
        { pins := [(1, .uOutput (match pend with | some s => s | none => v.tnot))],
          state := .available t, runs := cont.runs ++ [t] }) := by
  have hench : getComp (enterBody w cid t) cid = some (.withPins (.clock pend)
      { cont with state := .computing t, runs := cont.runs ++ [t] }) := by
    unfold enterBody
    rw [getComp_modComp_self, hc]
    rfl
  have hnin : getInputPin (enterBody w cid t) cid 1 = none := by
    rw [getInputPin_enterBody]
    unfold getInputPin
    rw [hc]
    simp [Container.getPin, hpins, List.lookup]
  have hall : run (fuel + 2) (.allPins cid (cont.pins.map Prod.fst) t) (enterBody w cid t) =
      some (enterBody w cid t, Tristate.low) := by
    rw [hpins]
    rw [run.eq_def]
    simp only [List.map_cons, List.map_nil, hnin]
    rw [run.eq_def]
  have hcell : getCell (enterBody w cid t) cid 1 = some v := by
    rw [getCell_enterBody]
    unfold getCell
    rw [hc]
    simp [Container.getPin, hpins, List.lookup]
  have hmain : ∀ w5, run (fuel + 2) (.drv cid) (enterBody w cid t) = some (w5, Tristate.low) →
      Component.simulate (fuel + 3) w cid t = some (setContState w5 cid (.available t)) := by
    intro w5 hdrv5
    unfold Component.simulate
    rw [run, hc]
    cases hst : cont.state with
    | computing ct => exact absurd hst (hnc ct)
    | neverComputed =>
      simp only [hst]
      rw [if_neg (by simp)]
      rw [hall]
      simp [hdrv5]
    | available t' =>
      have hne : t' ≠ t := fun he => hna (by rw [hst, he])
      simp only [hst]
      rw [if_neg (by simp [hne])]
      rw [hall]
      simp [hdrv5]
  cases pend with
  | none =>
    have hrun : run (fuel + 2) (.drv cid) (enterBody w cid t) =
        some (setCell (enterBody w cid t) cid 1 v.tnot, Tristate.low) := by
      rw [run, hench]
      simp [hcell]
    refine ⟨_, hmain _ hrun, ?_⟩
    have h5 : getComp (setCell (enterBody w cid t) cid 1 v.tnot) cid =
        some (.withPins (.clock none)
          { pins := [(1, .uOutput v.tnot)], state := .computing t,
            runs := cont.runs ++ [t] }) := by
      unfold setCell
      rw [getComp_modComp_self, hench]
      simp [Container.updCell, hpins]
    unfold setContState
    rw [getComp_modComp_self, h5]
    rfl
  | some s =>
    have hkind : getComp (setKind (enterBody w cid t) cid (.clock none)) cid =
        some (.withPins (.clock none)
          { cont with state := .computing t, runs := cont.runs ++ [t] }) := by
      unfold setKind
      rw [getComp_modComp_self, hench]
      rfl
    have hrun : run (fuel + 2) (.drv cid) (enterBody w cid t) =
        some (setCell (setKind (enterBody w cid t) cid (.clock none)) cid 1 s,
          Tristate.low) := by
      rw [run, hench]
      simp [hcell]
    refine ⟨_, hmain _ hrun, ?_⟩
    have h5 : getComp (setCell (setKind (enterBody w cid t) cid (.clock none)) cid 1 s) cid =
        some (.withPins (.clock none)
          { pins := [(1, .uOutput s)], state := .computing t,
            runs := cont.runs ++ [t] }) := by
      unfold setCell
      rw [getComp_modComp_self, hkind]
      simp [Container.updCell, hpins]
    unfold setContState
    rw [getComp_modComp_self, h5]
    rfl

/-- C9: a clock component (pin 1 a manual output holding `v`, pending user
value `pend`) simulated at a tick it has not yet computed: with no pending
value the output becomes `tnot v` (LOW↔HIGH, UNDEF stays UNDEF); with a
pending value `u` the output becomes `u` and the pending cell is consumed
(`value_for_next_tick` returns to `None`), so the override applies to that
tick only and the following tick negates from `u`. -/
theorem c9_clock_negate_or_override (fuel fuel2 : Nat) (w : World) (cid t : Nat)
    (pend : Option Tristate) (v : Tristate) (cont : Container)
    (hc : getComp w cid = some (.withPins (.clock pend) cont))
    (hpins : cont.pins = [(1, .uOutput v)])
    (hnc : ∀ ct, cont.state ≠ .computing ct)
    (hna : cont.state ≠ .available t) :
    (pend = none → ∃ w', Component.simulate (fuel + 3) w cid t = some w' ∧
      getCell w' cid 1 = some v.tnot ∧ getKind w' cid = some (.clock none)) ∧
    (∀ u, pend = some u → ∃ w' w'', Component.simulate (fuel + 3) w cid t = some w' ∧
      getCell w' cid 1 = some u ∧ getKind w' cid = some (.clock none) ∧
      Component.simulate (fuel2 + 3) w' cid (t + 1) = some w'' ∧
      getCell w'' cid 1 = some u.tnot) := by
  constructor
  · intro hp
    subst hp
    obtain ⟨w', hsim, hw'⟩ := clock_sim_eval fuel w cid t none v cont hc hpins hnc hna
    refine ⟨w', hsim, ?_, ?_⟩
    · unfold getCell
      rw [hw']
      simp [Container.getPin, List.lookup]
    · unfold getKind
      rw [hw']
  · intro u hp
    subst hp
    obtain ⟨w', hsim, hw'⟩ := clock_sim_eval fuel w cid t (some u) v cont hc hpins hnc hna
    obtain ⟨w'', hsim2, hw''⟩ := clock_sim_eval fuel2 w' cid (t + 1) none u _ hw' rfl
      (by intro ct h; simp at h)
      (by intro he; exact absurd (PinState.available.inj he) (by omega))
    refine ⟨w', w'', hsim, ?_, ?_, hsim2, ?_⟩
    · unfold getCell
      rw [hw']
      simp [Container.getPin, List.lookup]
    · unfold getKind
      rw [hw']
    · unfold getCell
      rw [hw'']
      simp [Container.getPin, List.lookup]

def c9Cont : Container :=
  { pins := [(1, .uOutput Tristate.low)], state := .neverComputed, runs := [] }

/-- A single clock, currently LOW, with a pending user value HIGH. -/
def c9World : World := [ .withPins (.clock (some Tristate.high)) c9Cont ]

/-- Witness for C9: on `c9World` the pending HIGH overrides tick 1's flip
and is consumed, and tick 2 negates HIGH. -/
theorem c9_clock_negate_or_override_witness :
    ∃ w' w'', Component.simulate 3 c9World 0 1 = some w' ∧
      getCell w' 0 1 = some Tristate.high ∧ getKind w' 0 = some (.clock none) ∧
      Component.simulate 3 w' 0 2 = some w'' ∧
      getCell w'' 0 1 = some Tristate.high.tnot :=
  (c9_clock_negate_or_override 0 0 c9World 0 1 (some Tristate.high) Tristate.low c9Cont
      rfl rfl (by intro ct; simp [c9Cont]) (by simp [c9Cont])).2 Tristate.high rfl

/-! ## The Circuit layer (`src/circuit/mod.rs`)

`Circuit` holds the name → component map and the tick counter.  The model
keeps the components in a `World` and maps names to component ids; a name
map entry whose id dangles plays the role of a missing map entry.  The
input capability (`as_input`) belongs to `ClockComponent` (and to
`InputComponent`, whose source file is not in the snapshot; the clock is
the input-capable representative here): `set_state_for_next_tick` stores
into `value_for_next_tick`, and `get_current_state` reads the output cell
(pin 1).  The output capability belongs to `OutputComponent` via its
`result` cell. -/

structure Circuit where
  current_tick : Nat
  names : List (String × Nat)
  world : World
deriving DecidableEq, Repr

/-- `enum SetInputError`. -/
inductive SetInputError where
  | unknownName : String → SetInputError
  | notAnInput : String → SetInputError
  | valueParseError : String → SetInputError
deriving DecidableEq, Repr

/-- `Component::as_input().is_some()`. -/
def Comp.isInput : Comp → Bool
  | .withPins (.clock _) _ => true
  | _ => false

/-- `Input::set_state_for_next_tick(v)`: store `Some v` in the pending
cell.  Leaves every pin, cell, container state and run log unchanged. -/
def setPending (w : World) (cid : Nat) (v : Tristate) : World :=
  modComp w cid fun c =>
    match c with
    | .withPins (.clock _) cont => .withPins (.clock (some v)) cont
    | c => c

/-- Fetch the named component. -/
def Circuit.comp (c : Circuit) (name : String) : Option (Nat × Comp) :=
  (c.names.lookup name).bind fun cid => (getComp c.world cid).map fun x => (cid, x)

/-- `Circuit::set_value(name, value)`: parse the text first, then resolve
the name, then require the input capability, then stage the value; each
failure is returned and the circuit is left as it was.  Never simulates. -/
def Circuit.set_value (c : Circuit) (name value : String) :
    Option SetInputError × Circuit :=
  match Tristate.from_str value with
  | .error _ => (some (.valueParseError value), c)
  | .ok v =>
    match c.comp name with
    | none => (some (.unknownName name), c)
    | some (cid, comp) =>
      if comp.isInput then (none, { c with world := setPending c.world cid v })
      else (some (.notAnInput name), c)

/-- `Circuit::get_input(name)`: the textual form of the input's current
latched state (the clock's output cell). -/
def Circuit.get_input (c : Circuit) (name : String) : Option String :=
  match c.comp name with
  | some (_, .withPins (.clock _) cont) =>
    match cont.getPin 1 with
    | some (.uOutput v) => some v.render
    | _ => none
  | _ => none

/-- `Circuit::get_output(name)`: the textual form of the output
component's `result` cell. -/
def Circuit.get_output (c : Circuit) (name : String) : Option String :=
  match c.comp name with
  | some (_, .withPins (.outputComp v) _) => some v.render
  | _ => none

/-- The loop of `Circuit::simulate`: call `Component::simulate(tick)` on
each component, in the (implementation-defined) order `ord`. -/
def foldSimulate (fuel : Nat) (ord : List Nat) (tick : Nat) (w : World) : Option World :=
  match ord with
  | [] => some w
  | cid :: rest =>
    match Component.simulate fuel w cid tick with
    | some w1 => foldSimulate fuel rest tick w1
    | none => none

/-- `Circuit::simulate()`: increment the tick, then simulate every
component at the new tick, iterating in order `ord`. -/
def Circuit.simulate (fuel : Nat) (ord : List Nat) (c : Circuit) : Option Circuit :=
  match foldSimulate fuel ord (c.current_tick + 1) c.world with
  | some w => some { c with current_tick := c.current_tick + 1, world := w }
  | none => none

theorem getCell_setPending (w : World) (cid : Nat) (v : Tristate) (cid' p' : Nat) :
    getCell (setPending w cid v) cid' p' = getCell w cid' p' := by
  by_cases hcc : cid' = cid
  · subst hcc
    unfold getCell setPending
    rw [getComp_modComp_self]
    cases hc : getComp w cid' with
    | none => rfl
    | some x =>
      cases x with
      | const b => rfl
      | withPins k cont => cases k <;> rfl
  · unfold getCell setPending
    rw [getComp_modComp_ne _ _ _ _ (Ne.symm hcc)]

theorem getInputPin_setPending (w : World) (cid : Nat) (v : Tristate) (cid' p' : Nat) :
    getInputPin (setPending w cid v) cid' p' = getInputPin w cid' p' := by
  by_cases hcc : cid' = cid
  · subst hcc
    unfold getInputPin setPending
    rw [getComp_modComp_self]
    cases hc : getComp w cid' with
    | none => rfl
    | some x =>
      cases x with
      | const b => rfl
      | withPins k cont => cases k <;> rfl
  · unfold getInputPin setPending
    rw [getComp_modComp_ne _ _ _ _ (Ne.symm hcc)]

theorem contStateOf_setPending (w : World) (cid : Nat) (v : Tristate) (cid' : Nat) :
    contStateOf (setPending w cid v) cid' = contStateOf w cid' := by
  by_cases hcc : cid' = cid
  · subst hcc
    unfold contStateOf setPending
    rw [getComp_modComp_self]
    cases hc : getComp w cid' with
    | none => rfl
    | some x =>
      cases x with
      | const b => rfl
      | withPins k cont => cases k <;> rfl
  · unfold contStateOf setPending
    rw [getComp_modComp_ne _ _ _ _ (Ne.symm hcc)]

/-! ## Claim C7 — set_value error taxonomy and state preservation -/

/-- C7: `Circuit::set_value(name, text)` returns `ValueParseError` when the
text is not a valid Tristate, `UnknownName` when the name resolves to no
component, `NotAnInput` when the named component lacks the input
capability, and otherwise stages the parsed value for the next tick.  In
the three error cases the circuit is returned exactly as it was; in the
success case the tick counter, the name map, every pin cell, every input
pin and every container state are unchanged — only the named component's
`value_for_next_tick` is set.  `set_value` never simulates. -/
theorem c7_set_value_errors_and_staging (c : Circuit) (name text : String) :
    (∀ e, Tristate.from_str text = .error e →
      c.set_value name text = (some (.valueParseError text), c)) ∧
    (∀ v, Tristate.from_str text = .ok v → c.comp name = none →
      c.set_value name text = (some (.unknownName name), c)) ∧
    (∀ v cid comp, Tristate.from_str text = .ok v → c.comp name = some (cid, comp) →
      comp.isInput = false →
      c.set_value name text = (some (.notAnInput name), c)) ∧
    (∀ v cid comp, Tristate.from_str text = .ok v → c.comp name = some (cid, comp) →
      comp.isInput = true →
      c.set_value name text = (none, { c with world := setPending c.world cid v }) ∧
      ({ c with world := setPending c.world cid v } : Circuit).current_tick =
        c.current_tick ∧
      ({ c with world := setPending c.world cid v } : Circuit).names = c.names ∧
      (∀ cid' p', getCell (setPending c.world cid v) cid' p' = getCell c.world cid' p') ∧
      (∀ cid' p', getInputPin (setPending c.world cid v) cid' p' =
        getInputPin c.world cid' p') ∧
      (∀ cid', contStateOf (setPending c.world cid v) cid' = contStateOf c.world cid')) := by
  refine ⟨?_, ?_, ?_, ?_⟩
  · intro e he
    unfold Circuit.set_value
    rw [he]
  · intro v hv hn
    unfold Circuit.set_value
    rw [hv, hn]
  · intro v cid comp hv hn hni
    unfold Circuit.set_value
    rw [hv, hn]
    simp [hni]
  · intro v cid comp hv hn hi
    refine ⟨?_, rfl, rfl, fun cid' p' => getCell_setPending .., fun cid' p' =>
      getInputPin_setPending .., fun cid' => contStateOf_setPending ..⟩
    unfold Circuit.set_value
    rw [hv, hn]
    simp [hi]

def c7Circuit : Circuit :=
  { current_tick := 0,
    names := [("cl", 0), ("out", 1)],
    world :=
      [ .withPins (.clock none)
          { pins := [(1, .uOutput Tristate.default)], state := .neverComputed, runs := [] },
        .withPins (.outputComp Tristate.default)
          { pins := [(1, .uInput UnidirectionalInputPin.new)],
            state := .neverComputed, runs := [] } ] }

/-- Witness for C7 on `c7Circuit`: a bad value, an unknown name, a
non-input component, and a successful staging on the clock. -/
theorem c7_set_value_errors_and_staging_witness :
    c7Circuit.set_value "cl" "2" = (some (.valueParseError "2"), c7Circuit) ∧
    c7Circuit.set_value "nope" "1" = (some (.unknownName "nope"), c7Circuit) ∧
    c7Circuit.set_value "out" "1" = (some (.notAnInput "out"), c7Circuit) ∧
    c7Circuit.set_value "cl" "1" =
      (none, { c7Circuit with world := setPending c7Circuit.world 0 Tristate.high }) :=
  ⟨(c7_set_value_errors_and_staging c7Circuit "cl" "2").1 _ rfl,
    (c7_set_value_errors_and_staging c7Circuit "nope" "1").2.1 Tristate.high rfl rfl,
    (c7_set_value_errors_and_staging c7Circuit "out" "1").2.2.1 Tristate.high 1 _ rfl rfl rfl,
    ((c7_set_value_errors_and_staging c7Circuit "cl" "1").2.2.2 Tristate.high 0 _ rfl rfl
      rfl).1⟩

/-! ## Claim C10 — ValueParseError takes precedence -/

/-- C10: `Circuit::set_value` checks the value text before the component
name: whenever the text is not a valid Tristate, the call returns
`ValueParseError` (with the circuit unchanged) for every circuit and every
name — also when the name is unknown or names a non-input component. -/
theorem c10_parse_error_precedence (c : Circuit) (name text : String)
    (h : ∀ v, Tristate.from_str text ≠ .ok v) :
    c.set_value name text = (some (.valueParseError text), c) := by
  unfold Circuit.set_value
  cases he : Tristate.from_str text with
  | error e => rfl
  | ok v => exact absurd he (h v)

/-- Witness for C10: the bad text `"x"` with a name that is also unknown
on `c7Circuit` — the parse error wins. -/
theorem c10_parse_error_precedence_witness :
    c7Circuit.set_value "nope" "x" = (some (.valueParseError "x"), c7Circuit) :=
  c10_parse_error_precedence c7Circuit "nope" "x" (by intro v h; simp [Tristate.from_str] at h)

/-! ## Claim C8 — iteration-order invariance of `Circuit::simulate`

The claim fails on circuits whose link graph has a combinational cycle.
Counterexample: an SR latch made of two cross-coupled NOR gates fed by two
clocks.  At tick 1 both clocks drive HIGH (pending user values), forcing
both latch outputs LOW.  At tick 2 both clocks flip to LOW; whichever NOR
gate the iteration reaches first reads the other's stale LOW output and
computes HIGH, so the `get_output` results depend on the order. -/

def freshInput (ls : List PinLink) : PinSlot :=
  .uInput { UnidirectionalInputPin.new with links := ls }

def freshClock (pend : Option Tristate) : Comp :=
  .withPins (.clock pend)
    { pins := [(1, .uOutput Tristate.default)], state := .neverComputed, runs := [] }

/-- ids: 0 = clock `s`, 1 = clock `r`, 2 = NOR `g1` (q), 3 = NOR `g2` (nq),
4 = output `q`, 5 = output `nq`. -/
def c8World : World :=
  [ freshClock (some Tristate.high),
    freshClock (some Tristate.high),
    .withPins (.gate2 .gnor)
      { pins := [(1, freshInput [⟨0, 1⟩]), (2, freshInput [⟨3, 3⟩]),
                 (3, .uOutput Tristate.default)],
        state := .neverComputed, runs := [] },
    .withPins (.gate2 .gnor)
      { pins := [(1, freshInput [⟨1, 1⟩]), (2, freshInput [⟨2, 3⟩]),
                 (3, .uOutput Tristate.default)],
        state := .neverComputed, runs := [] },
    .withPins (.outputComp Tristate.default)
      { pins := [(1, freshInput [⟨2, 3⟩])], state := .neverComputed, runs := [] },
    .withPins (.outputComp Tristate.default)
      { pins := [(1, freshInput [⟨3, 3⟩])], state := .neverComputed, runs := [] } ]

def c8Circuit : Circuit :=
  { current_tick := 0,
    names := [("s", 0), ("r", 1), ("g1", 2), ("g2", 3), ("q", 4), ("nq", 5)],
    world := c8World }

set_option maxRecDepth 100000 in
/-- C8 counterexample: after a common tick 1, running tick 2 with the
component orders `[2,3,4,5,0,1]` and `[3,2,4,5,0,1]` (both permutations of
the same components, from the same circuit state) yields `get_output "q" =
"0"` in the first run and `"1"` in the second — the observable values are
not invariant under the iteration order. -/
theorem c8_counterexample :
    ((c8Circuit.simulate 20 [0, 1, 2, 3, 4, 5]).bind fun c1 =>
      (c1.simulate 20 [2, 3, 4, 5, 0, 1]).bind fun cA =>
        (c1.simulate 20 [3, 2, 4, 5, 0, 1]).map fun cB =>
          (cA.get_output "q", cB.get_output "q"))
      = some (some "0", some "1") ∧ (some "0" : Option String) ≠ some "1" := by
  constructor
  · decide
  · decide

/-! ### The deterministic tick result for acyclic circuits

When the link graph is acyclic — witnessed by a rank function under which
every link points to a strictly lower-ranked component — one tick of
demand-driven evaluation has a unique outcome per component, computable by
recursion on rank: refresh every input pin with the OR-fold over the final
outputs of its (lower-ranked) peers, then apply the driver.  `finalCompAux`
is that recursion with an explicit rank bound as fuel. -/

/-- The value a refreshed input pin holds, reading link targets through a
component-valued oracle. -/
def refreshVal (oracle : Nat → Comp) (links : List PinLink) : Tristate :=
  (links.map fun l => ((oracle l.component).compute l.pin).getD .undefined).foldl
    Tristate.tor Tristate.low

/-- Refresh every input pin of a container for tick `t`. -/
def refreshPins (oracle : Nat → Comp) (t : Nat) (cont : Container) : Container :=
  { pins := cont.pins.map fun pr =>
      match pr with
      | (n, .uInput d) =>
        (n, .uInput { d with input_value := refreshVal oracle d.links,
                             input_state := .available t })
      | pr => pr,
    state := .computing t,
    runs := cont.runs ++ [t] }

/-- Read an input pin's cached value out of a container (UNDEF dummy when
the pin is absent or not an input — the engine would have panicked). -/
def inputVal (cont : Container) (p : Nat) : Tristate :=
  match cont.getPin p with
  | some (.uInput d) => d.input_value
  | _ => .undefined

/-- Read a manual output cell (UNDEF dummy when absent). -/
def cellVal (cont : Container) (p : Nat) : Tristate :=
  match cont.getPin p with
  | some (.uOutput v) => v
  | _ => .undefined

/-- The driver body's effect on an input-refreshed container (the value it
takes on success; on the panic paths the engine returns `none` instead). -/
def driverSpec (kind : CompKind) (cont' : Container) : Comp :=
  match kind with
  | .gate2 op =>
    .withPins (.gate2 op) (cont'.updCell 3 (op.apply (inputVal cont' 1) (inputVal cont' 2)))
  | .gateNot => .withPins .gateNot (cont'.updCell 2 (inputVal cont' 1).tnot)
  | .outputComp _ => .withPins (.outputComp (inputVal cont' 1)) cont'
  | .clock pend =>
    match pend with
    | some s => .withPins (.clock none) (cont'.updCell 1 s)
    | none => .withPins (.clock none) (cont'.updCell 1 (cellVal cont' 1).tnot)

/-- The post-tick component, by recursion on a rank bound. -/
def finalCompAux (w₀ : World) (t : Nat) (rank : Nat → Nat) : Nat → Nat → Comp
  | 0, cid => (getComp w₀ cid).getD (.const false)
  | r + 1, cid =>
    match getComp w₀ cid with
    | none => .const false
    | some (.const b) => .const b
    | some (.withPins kind cont) =>
      let cont' := { refreshPins (finalCompAux w₀ t rank r) t cont with
                     state := .available t }
      driverSpec kind cont'

/-- The post-tick component of `cid` at tick `t`. -/
def finalComp (w₀ : World) (t : Nat) (rank : Nat → Nat) (cid : Nat) : Comp :=
  finalCompAux w₀ t rank (rank cid + 1) cid

/-- Acyclicity witness: every link of every input pin points to a
component of strictly smaller rank. -/
def ranked (rank : Nat → Nat) (w : World) : Prop :=
  ∀ cid k cont, getComp w cid = some (.withPins k cont) →
    ∀ pr ∈ cont.pins, ∀ n d, pr = (n, .uInput d) →
      ∀ l ∈ d.links, rank l.component < rank cid

/-- No component or pin carries tick-`t` state, and nothing is mid-frame. -/
def cleanAt (w : World) (t : Nat) : Prop :=
  ∀ cid k cont, getComp w cid = some (.withPins k cont) →
    ((∀ ct, cont.state ≠ .computing ct) ∧ cont.state ≠ .available t) ∧
    ∀ pr ∈ cont.pins, ∀ n d, pr = (n, .uInput d) →
      (∀ ct, d.input_state ≠ .computing ct) ∧ d.input_state ≠ .available t

/-- Pin numbers are not duplicated within a container. -/
def nodupPins (w : World) : Prop :=
  ∀ cid k cont, getComp w cid = some (.withPins k cont) →
    (cont.pins.map Prod.fst).Nodup

/-- Below the rank bound, `finalCompAux` no longer depends on the bound. -/
theorem finalCompAux_stable (w₀ : World) (t : Nat) (rank : Nat → Nat)
    (hr : ranked rank w₀) :
    ∀ r cid, rank cid < r → finalCompAux w₀ t rank r cid = finalComp w₀ t rank cid := by
  intro r
  induction r using Nat.strong_induction_on with
  | _ r ih =>
    intro cid hlt
    cases r with
    | zero => omega
    | succ r =>
      unfold finalComp
      rw [finalCompAux, finalCompAux]
      cases hc : getComp w₀ cid with
      | none => rfl
      | some x =>
        cases x with
        | const b => rfl
        | withPins kind cont =>
          have hpins : refreshPins (finalCompAux w₀ t rank r) t cont =
              refreshPins (finalCompAux w₀ t rank (rank cid)) t cont := by
            unfold refreshPins
            simp only [Container.mk.injEq, and_true, true_and]
            refine List.map_congr_left ?_
            intro pr hpr
            obtain ⟨n, s⟩ := pr
            cases s with
            | uOutput v => rfl
            | floating => rfl
            | uInput d =>
              have hval : refreshVal (finalCompAux w₀ t rank r) d.links =
                  refreshVal (finalCompAux w₀ t rank (rank cid)) d.links := by
                unfold refreshVal
                congr 1
                refine List.map_congr_left ?_
                intro l hl
                have hrk := hr cid kind cont hc (n, .uInput d) hpr n d rfl l hl
                rw [ih r (by omega) l.component (by omega),
                  ih (rank cid) (by omega) l.component hrk]
              simp only [hval]
          simp only []
          rw [hpins]

def Fresh (w₀ w : World) (cid : Nat) : Prop := getComp w cid = getComp w₀ cid

def Done (w₀ : World) (t : Nat) (rank : Nat → Nat) (w : World) (cid : Nat) : Prop :=
  getComp w cid = some (finalComp w₀ t rank cid)

/-- Every component of rank below `R` is untouched or finished. -/
def QuietB (w₀ : World) (t : Nat) (rank : Nat → Nat) (R : Nat) (w : World) : Prop :=
  ∀ cid, rank cid < R → Fresh w₀ w cid ∨ Done w₀ t rank w cid

/-- The refreshed data of one input pin, described through the base world. -/
def finalPinData (w₀ : World) (t : Nat) (rank : Nat → Nat) (cid p : Nat) : InputPinData :=
  match getInputPin w₀ cid p with
  | some d => { d with
      input_value := refreshVal (finalComp w₀ t rank) d.links,
      input_state := .available t }
  | none => UnidirectionalInputPin.new

theorem refreshPins_stable (w₀ : World) (t : Nat) (rank : Nat → Nat)
    (hr : ranked rank w₀) (cid : Nat) (k : CompKind) (cont : Container)
    (hc : getComp w₀ cid = some (.withPins k cont)) :
    refreshPins (finalCompAux w₀ t rank (rank cid)) t cont =
      refreshPins (finalComp w₀ t rank) t cont := by
  unfold refreshPins
  simp only [Container.mk.injEq, and_true, true_and]
  refine List.map_congr_left ?_
  intro pr hpr
  obtain ⟨n, s⟩ := pr
  cases s with
  | uOutput v => rfl
  | floating => rfl
  | uInput d =>
    have hval : refreshVal (finalCompAux w₀ t rank (rank cid)) d.links =
        refreshVal (finalComp w₀ t rank) d.links := by
      unfold refreshVal
      congr 1
      refine List.map_congr_left ?_
      intro l hl
      rw [finalCompAux_stable w₀ t rank hr (rank cid) l.component
        (hr cid k cont hc (n, .uInput d) hpr n d rfl l hl)]
    simp only [hval]

/-- Canonical unfolding of `finalComp` on a container component. -/
theorem finalComp_unfold (w₀ : World) (t : Nat) (rank : Nat → Nat)
    (hr : ranked rank w₀) (cid : Nat) (k : CompKind) (cont : Container)
    (hc : getComp w₀ cid = some (.withPins k cont)) :
    finalComp w₀ t rank cid =
      driverSpec k { refreshPins (finalComp w₀ t rank) t cont with state := .available t } := by
  unfold finalComp
  rw [finalCompAux, hc]
  simp only []
  rw [refreshPins_stable w₀ t rank hr cid k cont hc]
  rfl

/-- With distinct pin numbers, a member of the association list is what
lookup returns. -/
theorem lookup_of_mem_nodup {β : Type} (l : List (Nat × β)) (n : Nat) (s : β)
    (hnd : (l.map Prod.fst).Nodup) (hm : (n, s) ∈ l) :
    List.lookup n l = some s := by
  induction l with
  | nil => cases hm
  | cons e rest ih =>
    obtain ⟨m, sv⟩ := e
    rw [List.map_cons, List.nodup_cons] at hnd
    cases List.mem_cons.mp hm with
    | inl he =>
      cases he
      simp [List.lookup]
    | inr hr =>
      have hne : n ≠ m := by
        intro he
        subst he
        exact hnd.1 (List.mem_map.mpr ⟨(n, s), hr, rfl⟩)
      simp only [List.lookup, show (n == m) = false by simp [hne]]
      exact ih hnd.2 hr

/-- The current container of `cid` has distinct pin numbers. -/
def NodupC (w : World) (cid : Nat) : Prop :=
  ∀ k cont, getComp w cid = some (.withPins k cont) → (cont.pins.map Prod.fst).Nodup

/-- The value `PinLink::compute` yields from a finished target. -/
def finalRead (w₀ : World) (t : Nat) (rank : Nat → Nat) (l : PinLink) : Tristate :=
  ((finalComp w₀ t rank l.component).compute l.pin).getD .undefined

/-- The component-level action of `UnidirectionalInputPin` updates. -/
def compUpdInput (p : Nat) (g : InputPinData → InputPinData) : Comp → Comp :=
  fun c =>
    match c with
    | .withPins k cont => .withPins k (cont.updInput p g)
    | c => c

theorem modInput_eq (w : World) (cid p : Nat) (g : InputPinData → InputPinData) :
    modInput w cid p g = modComp w cid (compUpdInput p g) := rfl

/-- Finalizing the input pins among `ps`, one at a time. -/
def multiUpd (w₀ : World) (t : Nat) (rank : Nat → Nat) (cid : Nat) (ps : List Nat)
    (c : Comp) : Comp :=
  ps.foldl (fun c p => compUpdInput p (fun _ => finalPinData w₀ t rank cid p) c) c

/-- The entry-list action of `Container.updInput`. -/
def updInputList (p : Nat) (g : InputPinData → InputPinData)
    (l : List (Nat × PinSlot)) : List (Nat × PinSlot) :=
  l.map fun e =>
    match e with
    | (n, .uInput d) => if n = p then (n, .uInput (g d)) else (n, .uInput d)
    | e => e

theorem updInput_pins (cont : Container) (p : Nat) (g : InputPinData → InputPinData) :
    (cont.updInput p g).pins = updInputList p g cont.pins := rfl

theorem updInputList_keys (p : Nat) (g : InputPinData → InputPinData)
    (l : List (Nat × PinSlot)) :
    (updInputList p g l).map Prod.fst = l.map Prod.fst := by
  unfold updInputList
  rw [List.map_map]
  refine List.map_congr_left ?_
  intro e he
  obtain ⟨n, s⟩ := e
  cases s <;> simp <;> split <;> rfl

theorem foldl_updInputList (f : Nat → InputPinData) :
    ∀ (ps : List Nat) (l : List (Nat × PinSlot)),
      ps.foldl (fun l p => updInputList p (fun _ => f p) l) l =
        l.map (fun e =>
          match e with
          | (n, .uInput d) => if n ∈ ps then (n, .uInput (f n)) else (n, .uInput d)
          | e => e) := by
  intro ps
  induction ps with
  | nil =>
    intro l
    rw [List.foldl_nil]
    have h0 : ∀ e ∈ l, (match e with
        | (n, PinSlot.uInput d) =>
          if n ∈ ([] : List Nat) then (n, PinSlot.uInput (f n)) else (n, PinSlot.uInput d)
        | e => e) = e := by
      intro e he
      obtain ⟨n, s⟩ := e
      cases s <;> simp
    rw [List.map_congr_left h0]
    simp
  | cons q rest ih =>
    intro l
    rw [List.foldl_cons, ih]
    unfold updInputList
    rw [List.map_map]
    refine List.map_congr_left ?_
    intro e he
    obtain ⟨n, s⟩ := e
    cases s with
    | uOutput v => simp [updInputList]
    | floating => simp [updInputList]
    | uInput d =>
      simp only [updInputList, Function.comp]
      by_cases hq : n = q
      · subst hq
        simp [List.mem_cons]
      · by_cases hrest : n ∈ rest
        · simp [hq, hrest, List.mem_cons]
        · simp [hq, hrest, List.mem_cons]

/-- Updating input pin `p` with the value it already holds is a no-op
(needs distinct pin numbers). -/
theorem updInput_id (cont : Container) (p : Nat) (g : InputPinData → InputPinData)
    (hnd : (cont.pins.map Prod.fst).Nodup)
    (hid : ∀ d, cont.getPin p = some (.uInput d) → g d = d) :
    cont.updInput p g = cont := by
  have hpt : ∀ e ∈ cont.pins, (match e with
      | (n, PinSlot.uInput d) => if n = p then (n, PinSlot.uInput (g d)) else (n, PinSlot.uInput d)
      | e => e) = e := by
    intro e he
    obtain ⟨n, s⟩ := e
    cases s with
    | uOutput v => rfl
    | floating => rfl
    | uInput d =>
      simp only []
      by_cases hq : n = p
      · subst hq
        rw [hid d (lookup_of_mem_nodup cont.pins n (.uInput d) hnd he)]
        simp
      · simp [hq]
  unfold Container.updInput
  cases cont with
  | mk pins st runs =>
    simp only []
    rw [List.map_congr_left hpt]
    simp

/-- Two updates of the same input pin agreeing on its (unique) current
data produce the same container. -/
theorem updInput_congr (cont : Container) (p : Nat)
    (g1 g2 : InputPinData → InputPinData)
    (hnd : (cont.pins.map Prod.fst).Nodup)
    (hid : ∀ d, cont.getPin p = some (.uInput d) → g1 d = g2 d) :
    cont.updInput p g1 = cont.updInput p g2 := by
  have hpt : ∀ e ∈ cont.pins, (match e with
      | (n, PinSlot.uInput d) => if n = p then (n, PinSlot.uInput (g1 d)) else (n, PinSlot.uInput d)
      | e => e) = (match e with
      | (n, PinSlot.uInput d) => if n = p then (n, PinSlot.uInput (g2 d)) else (n, PinSlot.uInput d)
      | e => e) := by
    intro e he
    obtain ⟨n, s⟩ := e
    cases s with
    | uOutput v => rfl
    | floating => rfl
    | uInput d =>
      simp only []
      by_cases hq : n = p
      · subst hq
        rw [hid d (lookup_of_mem_nodup cont.pins n (.uInput d) hnd he)]
      · simp [hq]
  unfold Container.updInput
  cases cont with
  | mk pins st runs =>
    simp only []
    rw [List.map_congr_left hpt]

theorem updInput_updInput (cont : Container) (p : Nat)
    (g1 g2 : InputPinData → InputPinData) :
    (cont.updInput p g1).updInput p g2 = cont.updInput p (fun d => g2 (g1 d)) := by
  unfold Container.updInput
  cases cont with
  | mk pins st runs =>
    simp only [List.map_map]
    congr 1
    refine List.map_congr_left ?_
    intro e he
    obtain ⟨n, s⟩ := e
    cases s with
    | uOutput v => rfl
    | floating => rfl
    | uInput d =>
      simp only [Function.comp]
      by_cases hq : n = p
      · subst hq
        simp
      · simp [hq]

theorem mem_of_lookup_eq_some {β : Type} (l : List (Nat × β)) (n : Nat) (s : β)
    (h : List.lookup n l = some s) : (n, s) ∈ l := by
  induction l with
  | nil => simp [List.lookup] at h
  | cons e rest ih =>
    obtain ⟨m, sv⟩ := e
    by_cases hq : n = m
    · subst hq
      simp only [List.lookup, beq_self_eq_true] at h
      cases h
      exact List.mem_cons_self ..
    · simp only [List.lookup, show (n == m) = false by simp [hq]] at h
      exact List.mem_cons_of_mem _ (ih h)

/-- Links of a base-world input pin are strictly rank-decreasing. -/
theorem ranked_links (w₀ : World) (rank : Nat → Nat) (hr : ranked rank w₀)
    (cid p : Nat) (d : InputPinData) (hd : getInputPin w₀ cid p = some d) :
    ∀ l ∈ d.links, rank l.component < rank cid := by
  obtain ⟨k, cont, hc, hs⟩ := getInputPin_inv w₀ cid p d hd
  exact hr cid k cont hc (p, .uInput d) (mem_of_lookup_eq_some _ _ _ hs) p d rfl

theorem multiUpd_withPins (w₀ : World) (t : Nat) (rank : Nat → Nat) (cid : Nat) :
    ∀ (ps : List Nat) (k : CompKind) (cont : Container),
      multiUpd w₀ t rank cid ps (.withPins k cont) =
        .withPins k (ps.foldl
          (fun cont p => cont.updInput p (fun _ => finalPinData w₀ t rank cid p)) cont) := by
  intro ps
  induction ps with
  | nil => intro k cont; rfl
  | cons q rest ih =>
    intro k cont
    unfold multiUpd at ih ⊢
    rw [List.foldl_cons, List.foldl_cons]
    exact ih k (cont.updInput q fun _ => finalPinData w₀ t rank cid q)

theorem foldl_updInput_pins (f : Nat → InputPinData) :
    ∀ (ps : List Nat) (cont : Container),
      ps.foldl (fun cont p => cont.updInput p (fun _ => f p)) cont =
        { cont with pins := ps.foldl (fun l p => updInputList p (fun _ => f p) l) cont.pins } := by
  intro ps
  induction ps with
  | nil => intro cont; rfl
  | cons q rest ih =>
    intro cont
    rw [List.foldl_cons, List.foldl_cons, ih]
    rfl

/-- Finalising every pin of a fresh, just-entered container produces
exactly the input-refreshed container. -/
theorem multiUpd_refresh (w₀ : World) (t : Nat) (rank : Nat → Nat) (cid : Nat)
    (k : CompKind) (cont0 : Container)
    (hc0 : getComp w₀ cid = some (.withPins k cont0))
    (hnd : (cont0.pins.map Prod.fst).Nodup) :
    multiUpd w₀ t rank cid (cont0.pins.map Prod.fst)
      (.withPins k { cont0 with state := .computing t, runs := cont0.runs ++ [t] }) =
      .withPins k (refreshPins (finalComp w₀ t rank) t cont0) := by
  rw [multiUpd_withPins, foldl_updInput_pins, foldl_updInputList]
  unfold refreshPins
  simp only [Comp.withPins.injEq, Container.mk.injEq, true_and, and_true]
  refine List.map_congr_left ?_
  intro e he
  obtain ⟨n, s⟩ := e
  cases s with
  | uOutput v => rfl
  | floating => rfl
  | uInput d =>
    have hmem : n ∈ cont0.pins.map Prod.fst := List.mem_map.mpr ⟨(n, .uInput d), he, rfl⟩
    simp only [hmem, if_pos]
    have hlp : getInputPin w₀ cid n = some d := by
      unfold getInputPin
      rw [hc0]
      simp [Container.getPin, lookup_of_mem_nodup cont0.pins n (.uInput d) hnd he]
    unfold finalPinData
    rw [hlp]

theorem driverSpec_setState (k : CompKind) (cont' : Container) (st : PinState) :
    (match driverSpec k cont' with
     | .withPins kk cc => Comp.withPins kk { cc with state := st }
     | c => c) = driverSpec k { cont' with state := st } := by
  cases k with
  | gate2 op => rfl
  | gateNot => rfl
  | outputComp v => rfl
  | clock pend => cases pend <;> rfl

theorem getInputPin_congr (w w' : World) (cid : Nat)
    (h : getComp w' cid = getComp w cid) (p : Nat) :
    getInputPin w' cid p = getInputPin w cid p := by
  unfold getInputPin
  rw [h]

theorem contStateOf_congr (w w' : World) (cid : Nat)
    (h : getComp w' cid = getComp w cid) :
    contStateOf w' cid = contStateOf w cid := by
  unfold contStateOf
  rw [h]

theorem mapform_getInputPin_self (w w1 : World) (cid p : Nat)
    (g : InputPinData → InputPinData)
    (hm : getComp w1 cid = (getComp w cid).map (compUpdInput p g)) :
    getInputPin w1 cid p = (getInputPin w cid p).map g := by
  unfold getInputPin
  rw [hm]
  cases hc : getComp w cid with
  | none => rfl
  | some x =>
    cases x with
    | const b => rfl
    | withPins k cont =>
      simp only [Option.map_some', compUpdInput]
      rw [getPin_updInput]
      cases hs : cont.getPin p with
      | none => rfl
      | some s => cases s <;> simp

theorem mapform_getInputPin_ne (w w1 : World) (cid p : Nat)
    (g : InputPinData → InputPinData)
    (hm : getComp w1 cid = (getComp w cid).map (compUpdInput p g))
    (q : Nat) (hq : q ≠ p) :
    getInputPin w1 cid q = getInputPin w cid q := by
  unfold getInputPin
  rw [hm]
  cases hc : getComp w cid with
  | none => rfl
  | some x =>
    cases x with
    | const b => rfl
    | withPins k cont =>
      simp only [Option.map_some', compUpdInput]
      rw [getPin_updInput]
      cases hs : cont.getPin q with
      | none => rfl
      | some s => cases s <;> simp [hq]

theorem mapform_nodup (w w1 : World) (cid p : Nat) (g : InputPinData → InputPinData)
    (hm : getComp w1 cid = (getComp w cid).map (compUpdInput p g))
    (hnd : NodupC w cid) : NodupC w1 cid := by
  intro k cont h1
  rw [hm] at h1
  cases hc : getComp w cid with
  | none => rw [hc] at h1; cases h1
  | some x =>
    rw [hc] at h1
    cases x with
    | const b => simp [compUpdInput] at h1
    | withPins k0 cont0 =>
      simp only [Option.map_some', compUpdInput, Option.some.injEq,
        Comp.withPins.injEq] at h1
      obtain ⟨hk, hcc⟩ := h1
      rw [← hcc, updInput_pins, updInputList_keys]
      exact hnd k0 cont0 hc

theorem QuietB_of_frame (w₀ : World) (t : Nat) (rank : Nat → Nat) (R : Nat)
    (w w' : World) (hq : QuietB w₀ t rank R w)
    (hf : ∀ e, rank e < R → getComp w' e = getComp w e) :
    QuietB w₀ t rank R w' := by
  intro cid hlt
  cases hq cid hlt with
  | inl h => exact Or.inl (by unfold Fresh at h ⊢; rw [hf cid hlt, h])
  | inr h => exact Or.inr (by unfold Done at h ⊢; rw [hf cid hlt, h])

theorem QuietB_mono (w₀ : World) (t : Nat) (rank : Nat → Nat) (R R' : Nat)
    (w : World) (hle : R ≤ R') (hq : QuietB w₀ t rank R' w) :
    QuietB w₀ t rank R w :=
  fun cid hlt => hq cid (by omega)

/-! ### The master invariant of one tick's evaluation -/

def MPre (w₀ : World) (t : Nat) (rank : Nat → Nat) : Req → World → Prop
  | .sim cid tk, w => tk = t ∧ QuietB w₀ t rank (rank cid + 1) w
  | .allPins cid ps tk, w => tk = t ∧ QuietB w₀ t rank (rank cid) w ∧ NodupC w cid ∧
      ∀ p ∈ ps, getInputPin w cid p = getInputPin w₀ cid p ∨
        (∃ d₀, getInputPin w₀ cid p = some d₀ ∧
          getInputPin w cid p = some (finalPinData w₀ t rank cid p))
  | .pinSim cid p tk, w => tk = t ∧ QuietB w₀ t rank (rank cid) w ∧ NodupC w cid ∧
      (getInputPin w cid p = getInputPin w₀ cid p ∨
        (∃ d₀, getInputPin w₀ cid p = some d₀ ∧
          getInputPin w cid p = some (finalPinData w₀ t rank cid p)))
  | .agg cid p links tk acc, w => tk = t ∧ QuietB w₀ t rank (rank cid) w ∧
      ∀ l ∈ links, rank l.component < rank cid
  | .link l tk, w => tk = t ∧ QuietB w₀ t rank (rank l.component + 1) w
  | .cin cid p, w => contStateOf w cid = some (.computing t) ∧
      (getInputPin w cid p = none ∨
        (∃ d₀, getInputPin w₀ cid p = some d₀ ∧
          getInputPin w cid p = some (finalPinData w₀ t rank cid p)))
  | .drv cid, w => ∃ k cont0, getComp w₀ cid = some (.withPins k cont0) ∧
      getComp w cid = some (.withPins k (refreshPins (finalComp w₀ t rank) t cont0))

def MPost (w₀ : World) (t : Nat) (rank : Nat → Nat) : Req → World → World → Tristate → Prop
  | .sim cid _tk, w, w1, _v =>
      Done w₀ t rank w1 cid ∧ QuietB w₀ t rank (rank cid + 1) w1 ∧
      (∀ e, e ≠ cid → rank cid ≤ rank e → getComp w1 e = getComp w e) ∧
      (∀ e, Done w₀ t rank w e → Done w₀ t rank w1 e)
  | .allPins cid ps _tk, w, w1, _v =>
      getComp w1 cid = (getComp w cid).map (multiUpd w₀ t rank cid ps) ∧
      QuietB w₀ t rank (rank cid) w1 ∧
      (∀ e, e ≠ cid → rank cid ≤ rank e → getComp w1 e = getComp w e) ∧
      (∀ e, e ≠ cid → Done w₀ t rank w e → Done w₀ t rank w1 e)
  | .pinSim cid p _tk, w, w1, _v =>
      getComp w1 cid =
        (getComp w cid).map (compUpdInput p (fun _ => finalPinData w₀ t rank cid p)) ∧
      QuietB w₀ t rank (rank cid) w1 ∧
      (∀ e, e ≠ cid → rank cid ≤ rank e → getComp w1 e = getComp w e) ∧
      (∀ e, e ≠ cid → Done w₀ t rank w e → Done w₀ t rank w1 e)
  | .agg cid p links _tk acc, w, w1, _v =>
      ∃ wm, w1 = finishPin wm cid p
          ((links.map (finalRead w₀ t rank)).foldl Tristate.tor acc) t ∧
        getComp wm cid = getComp w cid ∧ QuietB w₀ t rank (rank cid) wm ∧
        (∀ e, e ≠ cid → rank cid ≤ rank e → getComp wm e = getComp w e) ∧
        (∀ e, Done w₀ t rank w e → Done w₀ t rank wm e)
  | .link l _tk, w, w1, v =>
      v = finalRead w₀ t rank l ∧ Done w₀ t rank w1 l.component ∧
      QuietB w₀ t rank (rank l.component + 1) w1 ∧
      (∀ e, e ≠ l.component → rank l.component ≤ rank e → getComp w1 e = getComp w e) ∧
      (∀ e, Done w₀ t rank w e → Done w₀ t rank w1 e)
  | .cin cid p, w, w1, v =>
      w1 = w ∧ v = (finalPinData w₀ t rank cid p).input_value
  | .drv cid, w, w1, _v =>
      (∀ e, e ≠ cid → getComp w1 e = getComp w e) ∧
      ∀ k cont0, getComp w₀ cid = some (.withPins k cont0) →
        getComp w1 cid = some (driverSpec k (refreshPins (finalComp w₀ t rank) t cont0))

theorem finalComp_none (w₀ : World) (t : Nat) (rank : Nat → Nat) (cid : Nat)
    (h : getComp w₀ cid = none) : finalComp w₀ t rank cid = .const false := by
  unfold finalComp
  rw [finalCompAux, h]

theorem finalComp_const (w₀ : World) (t : Nat) (rank : Nat → Nat) (cid : Nat) (b : Bool)
    (h : getComp w₀ cid = some (.const b)) : finalComp w₀ t rank cid = .const b := by
  unfold finalComp
  rw [finalCompAux, h]

/-- `driverSpec` always returns a container component with the same
`state` and `runs` fields as its argument. -/
theorem driverSpec_fields (k : CompKind) (cont' : Container) :
    ∃ kk cc, driverSpec k cont' = .withPins kk cc ∧
      cc.state = cont'.state ∧ cc.runs = cont'.runs := by
  cases k with
  | gate2 op => exact ⟨_, _, rfl, rfl, rfl⟩
  | gateNot => exact ⟨_, _, rfl, rfl, rfl⟩
  | outputComp v => exact ⟨_, _, rfl, rfl, rfl⟩
  | clock pend =>
    cases pend with
    | none => exact ⟨_, _, rfl, rfl, rfl⟩
    | some s => exact ⟨_, _, rfl, rfl, rfl⟩

/-- Reading a slot of the refreshed container. -/
theorem refreshPins_getPin (oracle : Nat → Comp) (t : Nat) (cont : Container) (q : Nat) :
    (refreshPins oracle t cont).getPin q =
      (cont.getPin q).map fun s =>
        match s with
        | .uInput d => .uInput { d with input_value := refreshVal oracle d.links,
                                        input_state := .available t }
        | s => s := by
  unfold Container.getPin refreshPins
  simp only []
  rw [lookup_map_keyfix]
  · cases hs : List.lookup q cont.pins with
    | none => rfl
    | some s => cases s <;> simp
  · intro e
    obtain ⟨n, s⟩ := e
    cases s <;> rfl

/-- A fresh container component is never already its own final value (the
final value has a strictly longer run log). -/
theorem not_done_of_fresh_withPins (w₀ : World) (t : Nat) (rank : Nat → Nat)
    (hr : ranked rank w₀) (cid : Nat) (k : CompKind) (cont : Container)
    (hcw0 : getComp w₀ cid = some (.withPins k cont)) :
    finalComp w₀ t rank cid ≠ .withPins k cont := by
  intro he
  rw [finalComp_unfold w₀ t rank hr cid k cont hcw0] at he
  obtain ⟨kk, cc, hds, hst, hruns⟩ :=
    driverSpec_fields k { refreshPins (finalComp w₀ t rank) t cont with state := .available t }
  rw [hds] at he
  injection he with hk hcont
  have : cc.runs = cont.runs := by rw [hcont]
  rw [hruns] at this
  simp only [] at this
  have hlen := congrArg List.length this
  unfold refreshPins at hlen
  simp at hlen

/-- The induction hypothesis shape of the master invariant proof. -/
def IH (w₀ : World) (t : Nat) (rank : Nat → Nat) (f : Nat) : Prop :=
  ∀ (req : Req) (w : World), MPre w₀ t rank req w →
    run f req w = none ∨
    ∃ w1 v, run f req w = some (w1, v) ∧ MPost w₀ t rank req w w1 v

theorem step_cin (w₀ : World) (t : Nat) (rank : Nat → Nat) (f : Nat)
    (cid p : Nat) (w : World) (hpre : MPre w₀ t rank (.cin cid p) w) :
    run (f + 1) (.cin cid p) w = none ∨
    ∃ w1 v, run (f + 1) (.cin cid p) w = some (w1, v) ∧
      MPost w₀ t rank (.cin cid p) w w1 v := by
  obtain ⟨hcs, hpin⟩ := hpre
  cases hip : getInputPin w cid p with
  | none => exact Or.inl (by rw [run, hip])
  | some d =>
    rcases hpin with hnone | ⟨d₀, h₀, hFPD⟩
    · rw [hip] at hnone
      cases hnone
    · rw [hip] at hFPD
      injection hFPD with hd
      subst hd
      have hst : (finalPinData w₀ t rank cid p).input_state = .available t := by
        unfold finalPinData
        rw [h₀]
      cases f with
      | zero =>
        left
        rw [run, hip, hcs]
        rfl
      | succ f' =>
        have hps : run (f' + 1) (.pinSim cid p t) w = some (w, Tristate.low) := by
          rw [run, hip]
          simp [hst]
        right
        refine ⟨w, (finalPinData w₀ t rank cid p).input_value, ?_, rfl, rfl⟩
        rw [run, hip, hcs]
        simp [hps, hip, InputPinData.compute_input]

theorem step_link (w₀ : World) (t : Nat) (rank : Nat → Nat) (f : Nat)
    (ihf : IH w₀ t rank f) (l : PinLink) (w : World)
    (hpre : MPre w₀ t rank (.link l t) w) :
    run (f + 1) (.link l t) w = none ∨
    ∃ w1 v, run (f + 1) (.link l t) w = some (w1, v) ∧
      MPost w₀ t rank (.link l t) w w1 v := by
  obtain ⟨htk, hq⟩ := hpre
  cases hc : getComp w l.component with
  | none => exact Or.inl (by rw [run, hc])
  | some x =>
    rcases ihf (.sim l.component t) w ⟨rfl, hq⟩ with hnone | ⟨w1, v1, hrun, hpost⟩
    · left
      rw [run, hc]
      simp only [hnone]
    · obtain ⟨hdone, hq1, hframe, hdp⟩ := hpost
      have hcmp : (getComp w1 l.component).bind (fun c => c.compute l.pin) =
          (finalComp w₀ t rank l.component).compute l.pin := by
        rw [hdone]
        rfl
      cases hcv : (finalComp w₀ t rank l.component).compute l.pin with
      | none =>
        left
        rw [run, hc]
        simp only [hrun, hcmp, hcv]
      | some v =>
        right
        refine ⟨w1, v, ?_, ?_, hdone, hq1, hframe, hdp⟩
        · rw [run, hc]
          simp only [hrun, hcmp, hcv]
        · unfold finalRead
          rw [hcv]
          rfl

theorem step_agg (w₀ : World) (t : Nat) (rank : Nat → Nat) (f : Nat)
    (ihf : IH w₀ t rank f) (cid p : Nat) (links : List PinLink) (acc : Tristate)
    (w : World) (hpre : MPre w₀ t rank (.agg cid p links t acc) w) :
    run (f + 1) (.agg cid p links t acc) w = none ∨
    ∃ w1 v, run (f + 1) (.agg cid p links t acc) w = some (w1, v) ∧
      MPost w₀ t rank (.agg cid p links t acc) w w1 v := by
  obtain ⟨htk, hq, hranks⟩ := hpre
  cases links with
  | nil =>
    right
    refine ⟨finishPin w cid p acc t, Tristate.low, ?_, w, rfl, rfl, hq,
      fun e he hr => rfl, fun e hd => hd⟩
    rw [run.eq_def]
  | cons l rest =>
    have hrl : rank l.component < rank cid := hranks l (List.mem_cons_self ..)
    have hne_cid : cid ≠ l.component := by
      intro he
      rw [he] at hrl
      omega
    rcases ihf (.link l t) w ⟨rfl, QuietB_mono w₀ t rank _ _ w (by omega) hq⟩ with
      hnoneL | ⟨w1, v, hrunL, ⟨hv, hdoneT, hq1, hframeL, hdpL⟩⟩
    · left
      rw [run.eq_def]
      simp only [hnoneL]
    · have hq1' : QuietB w₀ t rank (rank cid) w1 := by
        intro e hlt
        by_cases hle : rank e < rank l.component + 1
        · exact hq1 e hle
        · have hee : e ≠ l.component := by
            intro he
            rw [he] at hle
            omega
          cases hq e hlt with
          | inl h => exact Or.inl (by unfold Fresh at h ⊢; rw [hframeL e hee (by omega), h])
          | inr h => exact Or.inr (by unfold Done at h ⊢; rw [hframeL e hee (by omega), h])
      rcases ihf (.agg cid p rest t (acc.tor v)) w1
          ⟨rfl, hq1', fun l2 h2 => hranks l2 (List.mem_cons_of_mem _ h2)⟩ with
        hnoneR | ⟨w2, v2, hrunR, ⟨wm, hw2, hwmcid, hwmq, hwmframe, hwmdp⟩⟩
      · left
        rw [run.eq_def]
        simp only [hrunL, hnoneR]
      · right
        subst hv
        refine ⟨w2, v2, ?_, wm, ?_, ?_, hwmq, ?_, ?_⟩
        · rw [run.eq_def]
          simp only [hrunL, hrunR]
        · rw [List.map_cons, List.foldl_cons]
          exact hw2
        · rw [hwmcid, hframeL cid hne_cid (by omega)]
        · intro e hecid hre
          rw [hwmframe e hecid hre, hframeL e (by intro he; rw [he] at hre; omega) (by omega)]
        · intro e hd
          exact hwmdp e (hdpL e hd)

theorem step_pinSim (w₀ : World) (t : Nat) (rank : Nat → Nat) (f : Nat)
    (ihf : IH w₀ t rank f) (hclean : cleanAt w₀ t) (hranked : ranked rank w₀)
    (cid p : Nat) (w : World) (hpre : MPre w₀ t rank (.pinSim cid p t) w) :
    run (f + 1) (.pinSim cid p t) w = none ∨
    ∃ w1 v, run (f + 1) (.pinSim cid p t) w = some (w1, v) ∧
      MPost w₀ t rank (.pinSim cid p t) w w1 v := by
  obtain ⟨htk, hq, hnod, hpin⟩ := hpre
  cases hip : getInputPin w cid p with
  | none => exact Or.inl (by rw [run, hip])
  | some d =>
    have hd_eq : ∀ kk cc dd, getComp w cid = some (.withPins kk cc) →
        cc.getPin p = some (.uInput dd) → dd = d := by
      intro kk cc dd hcw hdd
      have hdq : getInputPin w cid p = some dd := by
        unfold getInputPin
        rw [hcw]
        simp [hdd]
      rw [hip] at hdq
      injection hdq with h
      exact h.symm
    rcases hpin with hfresh | ⟨d₀, h₀, hFPD⟩
    · have h₀ : getInputPin w₀ cid p = some d := by rw [← hfresh, hip]
      obtain ⟨k0, cont0, hcw0, hs0⟩ := getInputPin_inv w₀ cid p d h₀
      have hclean_pin := (hclean cid k0 cont0 hcw0).2 (p, .uInput d)
        (mem_of_lookup_eq_some _ _ _ hs0) p d rfl
      have hq_mark : QuietB w₀ t rank (rank cid) (markComputing w cid p t) := by
        refine QuietB_of_frame w₀ t rank _ w _ hq ?_
        intro e hlt
        have hee : cid ≠ e := by intro he; rw [← he] at hlt; omega
        unfold markComputing modInput
        exact getComp_modComp_ne _ _ _ _ hee
      have hranks := ranked_links w₀ rank hranked cid p d h₀
      rcases ihf (.agg cid p d.links t Tristate.low) (markComputing w cid p t)
          ⟨rfl, hq_mark, hranks⟩ with
        hnoneA | ⟨wa, va, hrunA, ⟨wm, hwa, hwmcid, hwmq, hwmframe, hwmdp⟩⟩
      · left
        rw [run, hip]
        cases hst : d.input_state with
        | computing ct => exact absurd hst (hclean_pin.1 ct)
        | neverComputed => simp [hst, hnoneA]
        | available t' =>
          have hne : ¬(PinState.available t' = PinState.available t) := by
            intro he
            exact hclean_pin.2 (by rw [hst, he])
          simp [hst, hne, hnoneA]
      · have hG1 : run (f + 1) (.pinSim cid p t) w = some (wa, va) := by
          rw [run, hip]
          cases hst : d.input_state with
          | computing ct => exact absurd hst (hclean_pin.1 ct)
          | neverComputed => simp [hst, hrunA]
          | available t' =>
            have hne : ¬(PinState.available t' = PinState.available t) := by
              intro he
              exact hclean_pin.2 (by rw [hst, he])
            simp [hst, hne, hrunA]
        have hmark : getComp (markComputing w cid p t) cid =
            (getComp w cid).map
              (compUpdInput p (fun dd => { dd with input_state := PinState.computing t })) := by
          unfold markComputing modInput
          exact getComp_modComp_self ..
        have hfin : getComp wa cid =
            (getComp wm cid).map
              (compUpdInput p (fun dd =>
                { dd with
                  input_value :=
                    (d.links.map (finalRead w₀ t rank)).foldl Tristate.tor Tristate.low,
                  input_state := PinState.available t })) := by
          rw [hwa]
          unfold finishPin modInput
          exact getComp_modComp_self ..
        have hG2 : getComp wa cid =
            (getComp w cid).map
              (compUpdInput p (fun _ => finalPinData w₀ t rank cid p)) := by
          rw [hfin, hwmcid, hmark, Option.map_map]
          cases hcw : getComp w cid with
          | none => rfl
          | some c0 =>
            simp only [Option.map_some']
            congr 1
            cases c0 with
            | const b => rfl
            | withPins kk cc =>
              simp only [Function.comp, compUpdInput]
              rw [updInput_updInput]
              refine congrArg _ (updInput_congr cc p _ _ (hnod kk cc hcw) ?_)
              intro dd hdd
              have hde := hd_eq kk cc dd hcw hdd
              subst hde
              unfold finalPinData
              rw [h₀]
              rfl
        have hwa_ne : ∀ e, e ≠ cid → getComp wa e = getComp wm e := by
          intro e hee
          rw [hwa]
          unfold finishPin modInput
          exact getComp_modComp_ne _ _ _ _ (Ne.symm hee)
        have hmark_ne : ∀ e, e ≠ cid → getComp (markComputing w cid p t) e = getComp w e := by
          intro e hee
          unfold markComputing modInput
          exact getComp_modComp_ne _ _ _ _ (Ne.symm hee)
        refine Or.inr ⟨wa, va, hG1, hG2, ?_, ?_, ?_⟩
        · refine QuietB_of_frame w₀ t rank _ wm _ hwmq ?_
          intro e hlt
          exact hwa_ne e (by intro he; rw [he] at hlt; omega)
        · intro e hee hre
          rw [hwa_ne e hee, hwmframe e hee hre, hmark_ne e hee]
        · intro e hee hd
          unfold Done at hd ⊢
          rw [hwa_ne e hee]
          have hd1 : Done w₀ t rank (markComputing w cid p t) e := by
            unfold Done
            rw [hmark_ne e hee]
            exact hd
          exact hwmdp e hd1
    · rw [hip] at hFPD
      injection hFPD with hd
      subst hd
      have hstA : (finalPinData w₀ t rank cid p).input_state = .available t := by
        unfold finalPinData
        rw [h₀]
      refine Or.inr ⟨w, Tristate.low, ?_, ?_, hq, fun e he hr => rfl, fun e he hd => hd⟩
      · rw [run, hip]
        simp [hstA]
      · cases hcw : getComp w cid with
        | none => rfl
        | some c0 =>
          simp only [Option.map_some']
          cases c0 with
          | const b => rfl
          | withPins kk cc =>
            simp only [compUpdInput]
            rw [updInput_id cc p _ (hnod kk cc hcw) ?_]
            intro dd hdd
            exact (hd_eq kk cc dd hcw hdd).symm

theorem step_allPins (w₀ : World) (t : Nat) (rank : Nat → Nat) (f : Nat)
    (ihf : IH w₀ t rank f) (cid : Nat) (ps : List Nat) (w : World)
    (hpre : MPre w₀ t rank (.allPins cid ps t) w) :
    run (f + 1) (.allPins cid ps t) w = none ∨
    ∃ w1 v, run (f + 1) (.allPins cid ps t) w = some (w1, v) ∧
      MPost w₀ t rank (.allPins cid ps t) w w1 v := by
  obtain ⟨htk, hq, hnod, hpins⟩ := hpre
  cases ps with
  | nil =>
    right
    refine ⟨w, Tristate.low, by rw [run.eq_def], ?_, hq, fun e he hr => rfl,
      fun e he hd => hd⟩
    cases getComp w cid <;> rfl
  | cons p rest =>
    cases hip : getInputPin w cid p with
    | none =>
      rcases ihf (.allPins cid rest t) w
          ⟨rfl, hq, hnod, fun q hqm => hpins q (List.mem_cons_of_mem _ hqm)⟩ with
        hnoneR | ⟨w1, v1, hrunR, ⟨hmap, hq1, hframe, hdp⟩⟩
      · left
        rw [run.eq_def]
        simp only [hip, hnoneR]
      · right
        refine ⟨w1, v1, ?_, ?_, hq1, hframe, hdp⟩
        · rw [run.eq_def]
          simp only [hip, hrunR]
        · rw [hmap]
          cases hcw : getComp w cid with
          | none => rfl
          | some c0 =>
            simp only [Option.map_some']
            congr 1
            show multiUpd w₀ t rank cid rest c0 = multiUpd w₀ t rank cid (p :: rest) c0
            unfold multiUpd
            rw [List.foldl_cons]
            congr 1
            cases c0 with
            | const b => rfl
            | withPins kk cc =>
              simp only [compUpdInput]
              rw [updInput_id cc p _ (hnod kk cc hcw) ?_]
              intro dd hdd
              exfalso
              have hcon : getInputPin w cid p = some dd := by
                unfold getInputPin
                rw [hcw]
                simp [hdd]
              rw [hip] at hcon
              cases hcon
    | some d =>
      rcases ihf (.pinSim cid p t) w ⟨rfl, hq, hnod, hpins p (List.mem_cons_self ..)⟩ with
        hnoneP | ⟨w1, v1, hrunP, ⟨hmapP, hq1, hframeP, hdpP⟩⟩
      · left
        rw [run.eq_def]
        simp only [hip, hnoneP]
      · have hpins1 : ∀ q ∈ rest, getInputPin w1 cid q = getInputPin w₀ cid q ∨
            (∃ d₀, getInputPin w₀ cid q = some d₀ ∧
              getInputPin w1 cid q = some (finalPinData w₀ t rank cid q)) := by
          intro q hqm
          by_cases hqp : q = p
          · subst hqp
            right
            have hw0 : ∃ d₀, getInputPin w₀ cid q = some d₀ := by
              rcases hpins q (List.mem_cons_self ..) with hl | ⟨d₀, h₀, _⟩
              · exact ⟨d, by rw [← hl, hip]⟩
              · exact ⟨d₀, h₀⟩
            obtain ⟨d₀, h₀⟩ := hw0
            refine ⟨d₀, h₀, ?_⟩
            rw [mapform_getInputPin_self w w1 cid q _ hmapP, hip]
            rfl
          · rw [mapform_getInputPin_ne w w1 cid p _ hmapP q hqp]
            exact hpins q (List.mem_cons_of_mem _ hqm)
        rcases ihf (.allPins cid rest t) w1
            ⟨rfl, hq1, mapform_nodup w w1 cid p _ hmapP hnod, hpins1⟩ with
          hnoneR | ⟨w2, v2, hrunR, ⟨hmapR, hq2, hframeR, hdpR⟩⟩
        · left
          rw [run.eq_def]
          simp only [hip, hrunP, hnoneR]
        · right
          refine ⟨w2, v2, ?_, ?_, hq2, ?_, ?_⟩
          · rw [run.eq_def]
            simp only [hip, hrunP, hrunR]
          · rw [hmapR, hmapP, Option.map_map]
            rfl
          · intro e hee hre
            rw [hframeR e hee hre, hframeP e hee hre]
          · intro e hee hd
            exact hdpR e hee (hdpP e hee hd)

theorem cin_some_inv (f : Nat) (cid q : Nat) (w : World) (pr : World × Tristate)
    (h : run f (.cin cid q) w = some pr) : ∃ dd, getInputPin w cid q = some dd := by
  cases f with
  | zero => simp [run] at h
  | succ f' =>
    rw [run] at h
    cases hip : getInputPin w cid q with
    | none => rw [hip] at h; cases h
    | some dd => exact ⟨dd, rfl⟩

theorem step_drv (w₀ : World) (t : Nat) (rank : Nat → Nat) (f : Nat)
    (ihf : IH w₀ t rank f) (cid : Nat) (w : World)
    (hpre : MPre w₀ t rank (.drv cid) w) :
    run (f + 1) (.drv cid) w = none ∨
    ∃ w1 v, run (f + 1) (.drv cid) w = some (w1, v) ∧
      MPost w₀ t rank (.drv cid) w w1 v := by
  obtain ⟨k, cont0, hcw0, hcw⟩ := hpre
  have hcs : contStateOf w cid = some (.computing t) := by
    unfold contStateOf
    rw [hcw]
    rfl
  have hgin : ∀ q d₀, cont0.getPin q = some (.uInput d₀) →
      getInputPin w₀ cid q = some d₀ ∧
      getInputPin w cid q = some (finalPinData w₀ t rank cid q) := by
    intro q d₀ hq0
    have h₀ : getInputPin w₀ cid q = some d₀ := by
      unfold getInputPin
      rw [hcw0]
      simp [hq0]
    refine ⟨h₀, ?_⟩
    unfold getInputPin
    rw [hcw]
    simp only []
    rw [refreshPins_getPin, hq0]
    simp only [Option.map_some']
    unfold finalPinData
    rw [h₀]
  have hgin_none : ∀ q, (cont0.getPin q = none ∨ (∃ v0, cont0.getPin q = some (.uOutput v0)) ∨
      cont0.getPin q = some .floating) → getInputPin w cid q = none := by
    intro q hq0
    unfold getInputPin
    rw [hcw]
    simp only []
    rw [refreshPins_getPin]
    rcases hq0 with h | ⟨v0, h⟩ | h <;> rw [h] <;> rfl
  have hcin_pre : ∀ q, MPre w₀ t rank (.cin cid q) w := by
    intro q
    refine ⟨hcs, ?_⟩
    cases hq0 : cont0.getPin q with
    | none => exact Or.inl (hgin_none q (Or.inl hq0))
    | some s =>
      cases s with
      | uInput d₀ => exact Or.inr ⟨d₀, (hgin q d₀ hq0).1, (hgin q d₀ hq0).2⟩
      | uOutput v0 => exact Or.inl (hgin_none q (Or.inr (Or.inl ⟨v0, hq0⟩)))
      | floating => exact Or.inl (hgin_none q (Or.inr (Or.inr hq0)))
  have hinv : ∀ q dd, getInputPin w cid q = some dd →
      ∃ d₀, cont0.getPin q = some (.uInput d₀) := by
    intro q dd hdd
    cases hq0 : cont0.getPin q with
    | none => rw [hgin_none q (Or.inl hq0)] at hdd; cases hdd
    | some s =>
      cases s with
      | uInput d₀ => exact ⟨d₀, rfl⟩
      | uOutput v0 => rw [hgin_none q (Or.inr (Or.inl ⟨v0, hq0⟩))] at hdd; cases hdd
      | floating => rw [hgin_none q (Or.inr (Or.inr hq0))] at hdd; cases hdd
  have hval : ∀ q d₀, cont0.getPin q = some (.uInput d₀) →
      inputVal (refreshPins (finalComp w₀ t rank) t cont0) q =
        (finalPinData w₀ t rank cid q).input_value := by
    intro q d₀ h
    unfold inputVal
    rw [refreshPins_getPin, h]
    simp only [Option.map_some']
    unfold finalPinData
    rw [(hgin q d₀ h).1]
  have hcellread : ∀ q v0, cont0.getPin q = some (.uOutput v0) → getCell w cid q = some v0 := by
    intro q v0 h
    unfold getCell
    rw [hcw]
    simp only []
    rw [refreshPins_getPin, h]
    rfl
  have hcell_none : ∀ q, (cont0.getPin q = none ∨ (∃ d₀, cont0.getPin q = some (.uInput d₀)) ∨
      cont0.getPin q = some .floating) → getCell w cid q = none := by
    intro q hq0
    unfold getCell
    rw [hcw]
    simp only []
    rw [refreshPins_getPin]
    rcases hq0 with h | ⟨d₀, h⟩ | h <;> rw [h] <;> rfl
  have hpostcomp : ∀ x, getComp w₀ cid = some x →
      (∀ k' cont0', x = .withPins k' cont0' → k' = k ∧ cont0' = cont0) := by
    intro x hx k' cont0' hx2
    rw [hx2] at hx
    rw [hcw0] at hx
    injection hx with hx3
    injection hx3 with h1 h2
    exact ⟨h1.symm, h2.symm⟩
  cases k with
  | gate2 op =>
    rcases ihf (.cin cid 1) w (hcin_pre 1) with hn1 | ⟨wc1, vc1, hr1, ⟨hwc1, hvc1⟩⟩
    · left
      rw [run, hcw]
      simp only [hn1]
    · rw [hwc1] at hr1
      rcases ihf (.cin cid 2) w (hcin_pre 2) with hn2 | ⟨wc2, vc2, hr2, ⟨hwc2, hvc2⟩⟩
      · left
        rw [run, hcw]
        simp only [hr1, hn2]
      · rw [hwc2] at hr2
        cases hp3 : cont0.getPin 3 with
        | none =>
          left
          rw [run, hcw]
          simp only [hr1, hr2, hcell_none 3 (Or.inl hp3)]
        | some s =>
          cases s with
          | uInput d3 =>
            left
            rw [run, hcw]
            simp only [hr1, hr2, hcell_none 3 (Or.inr (Or.inl ⟨d3, hp3⟩))]
          | floating =>
            left
            rw [run, hcw]
            simp only [hr1, hr2, hcell_none 3 (Or.inr (Or.inr hp3))]
          | uOutput v0 =>
            right
            obtain ⟨dd1, hdd1⟩ := cin_some_inv f cid 1 w _ hr1
            obtain ⟨dd2, hdd2⟩ := cin_some_inv f cid 2 w _ hr2
            obtain ⟨d₁, hd₁⟩ := hinv 1 dd1 hdd1
            obtain ⟨d₂, hd₂⟩ := hinv 2 dd2 hdd2
            refine ⟨setCell w cid 3 (op.apply vc1 vc2), Tristate.low, ?_, ?_, ?_⟩
            · rw [run, hcw]
              simp only [hr1, hr2, hcellread 3 v0 hp3]
            · intro e hee
              unfold setCell
              exact getComp_modComp_ne _ _ _ _ (Ne.symm hee)
            · intro k' cont0' hcw0'
              obtain ⟨hk', hc'⟩ := hpostcomp _ hcw0 k' cont0' (by
                rw [hcw0'] at hcw0
                injection hcw0 with h
                exact h.symm)
              subst hk'
              subst hc'
              have hset : getComp (setCell w cid 3 (op.apply vc1 vc2)) cid =
                  (getComp w cid).map (fun c =>
                    match c with
                    | .withPins kk c2 => .withPins kk (c2.updCell 3 (op.apply vc1 vc2))
                    | c => c) := by
                unfold setCell
                exact getComp_modComp_self ..
              rw [hset, hcw]
              simp only [Option.map_some']
              unfold driverSpec
              rw [hvc1, hvc2, hval 1 d₁ hd₁, hval 2 d₂ hd₂]
  | gateNot =>
    rcases ihf (.cin cid 1) w (hcin_pre 1) with hn1 | ⟨wc1, vc1, hr1, ⟨hwc1, hvc1⟩⟩
    · left
      rw [run, hcw]
      simp only [hn1]
    · rw [hwc1] at hr1
      cases hp2 : cont0.getPin 2 with
      | none =>
        left
        rw [run, hcw]
        simp only [hr1, hcell_none 2 (Or.inl hp2)]
      | some s =>
        cases s with
        | uInput d2 =>
          left
          rw [run, hcw]
          simp only [hr1, hcell_none 2 (Or.inr (Or.inl ⟨d2, hp2⟩))]
        | floating =>
          left
          rw [run, hcw]
          simp only [hr1, hcell_none 2 (Or.inr (Or.inr hp2))]
        | uOutput v0 =>
          right
          obtain ⟨dd1, hdd1⟩ := cin_some_inv f cid 1 w _ hr1
          obtain ⟨d₁, hd₁⟩ := hinv 1 dd1 hdd1
          refine ⟨setCell w cid 2 vc1.tnot, Tristate.low, ?_, ?_, ?_⟩
          · rw [run, hcw]
            simp only [hr1, hcellread 2 v0 hp2]
          · intro e hee
            unfold setCell
            exact getComp_modComp_ne _ _ _ _ (Ne.symm hee)
          · intro k' cont0' hcw0'
            obtain ⟨hk', hc'⟩ := hpostcomp _ hcw0 k' cont0' (by
              rw [hcw0'] at hcw0
              injection hcw0 with h
              exact h.symm)
            subst hk'
            subst hc'
            have hset : getComp (setCell w cid 2 vc1.tnot) cid =
                (getComp w cid).map (fun c =>
                  match c with
                  | .withPins kk c2 => .withPins kk (c2.updCell 2 vc1.tnot)
                  | c => c) := by
              unfold setCell
              exact getComp_modComp_self ..
            rw [hset, hcw]
            simp only [Option.map_some']
            unfold driverSpec
            rw [hvc1, hval 1 d₁ hd₁]
  | outputComp res0 =>
    rcases ihf (.cin cid 1) w (hcin_pre 1) with hn1 | ⟨wc1, vc1, hr1, ⟨hwc1, hvc1⟩⟩
    · left
      rw [run, hcw]
      simp only [hn1]
    · rw [hwc1] at hr1
      right
      obtain ⟨dd1, hdd1⟩ := cin_some_inv f cid 1 w _ hr1
      obtain ⟨d₁, hd₁⟩ := hinv 1 dd1 hdd1
      refine ⟨setKind w cid (.outputComp vc1), Tristate.low, ?_, ?_, ?_⟩
      · rw [run, hcw]
        simp only [hr1]
      · intro e hee
        unfold setKind
        exact getComp_modComp_ne _ _ _ _ (Ne.symm hee)
      · intro k' cont0' hcw0'
        obtain ⟨hk', hc'⟩ := hpostcomp _ hcw0 k' cont0' (by
          rw [hcw0'] at hcw0
          injection hcw0 with h
          exact h.symm)
        subst hk'
        subst hc'
        have hset : getComp (setKind w cid (.outputComp vc1)) cid =
            (getComp w cid).map (fun c =>
              match c with
              | .withPins _ c2 => .withPins (.outputComp vc1) c2
              | c => c) := by
          unfold setKind
          exact getComp_modComp_self ..
        rw [hset, hcw]
        simp only [Option.map_some']
        unfold driverSpec
        rw [hvc1, hval 1 d₁ hd₁]
  | clock pend =>
    cases hp1 : cont0.getPin 1 with
    | none =>
      left
      rw [run, hcw]
      simp only [hcell_none 1 (Or.inl hp1)]
    | some s =>
      cases s with
      | uInput d1 =>
        left
        rw [run, hcw]
        simp only [hcell_none 1 (Or.inr (Or.inl ⟨d1, hp1⟩))]
      | floating =>
        left
        rw [run, hcw]
        simp only [hcell_none 1 (Or.inr (Or.inr hp1))]
      | uOutput v0 =>
        have hcv : cellVal (refreshPins (finalComp w₀ t rank) t cont0) 1 = v0 := by
          unfold cellVal
          rw [refreshPins_getPin, hp1]
          rfl
        cases pend with
        | some s0 =>
          right
          refine ⟨setCell (setKind w cid (.clock none)) cid 1 s0, Tristate.low, ?_, ?_, ?_⟩
          · rw [run, hcw]
            simp only [hcellread 1 v0 hp1]
          · intro e hee
            unfold setCell setKind
            rw [getComp_modComp_ne _ _ _ _ (Ne.symm hee),
              getComp_modComp_ne _ _ _ _ (Ne.symm hee)]
          · intro k' cont0' hcw0'
            obtain ⟨hk', hc'⟩ := hpostcomp _ hcw0 k' cont0' (by
              rw [hcw0'] at hcw0
              injection hcw0 with h
              exact h.symm)
            rw [hk', hc']
            have hsetk : getComp (setKind w cid (.clock none)) cid =
                some (.withPins (.clock none) (refreshPins (finalComp w₀ t rank) t cont0)) := by
              unfold setKind
              rw [getComp_modComp_self, hcw]
              rfl
            have hset : getComp (setCell (setKind w cid (.clock none)) cid 1 s0) cid =
                (getComp (setKind w cid (.clock none)) cid).map (fun c =>
                  match c with
                  | .withPins kk c2 => .withPins kk (c2.updCell 1 s0)
                  | c => c) := by
              unfold setCell
              exact getComp_modComp_self ..
            rw [hset, hsetk]
            rfl
        | none =>
          right
          refine ⟨setCell w cid 1 v0.tnot, Tristate.low, ?_, ?_, ?_⟩
          · rw [run, hcw]
            simp only [hcellread 1 v0 hp1]
          · intro e hee
            unfold setCell
            exact getComp_modComp_ne _ _ _ _ (Ne.symm hee)
          · intro k' cont0' hcw0'
            obtain ⟨hk', hc'⟩ := hpostcomp _ hcw0 k' cont0' (by
              rw [hcw0'] at hcw0
              injection hcw0 with h
              exact h.symm)
            subst hk'
            subst hc'
            have hset : getComp (setCell w cid 1 v0.tnot) cid =
                (getComp w cid).map (fun c =>
                  match c with
                  | .withPins kk c2 => .withPins kk (c2.updCell 1 v0.tnot)
                  | c => c) := by
              unfold setCell
              exact getComp_modComp_self ..
            rw [hset, hcw]
            simp only [Option.map_some']
            unfold driverSpec
            rw [hcv]

theorem step_sim (w₀ : World) (t : Nat) (rank : Nat → Nat) (f : Nat)
    (ihf : IH w₀ t rank f) (hclean : cleanAt w₀ t) (hranked : ranked rank w₀)
    (hndp : nodupPins w₀) (cid : Nat) (w : World)
    (hpre : MPre w₀ t rank (.sim cid t) w) :
    run (f + 1) (.sim cid t) w = none ∨
    ∃ w1 v, run (f + 1) (.sim cid t) w = some (w1, v) ∧
      MPost w₀ t rank (.sim cid t) w w1 v := by
  obtain ⟨htk, hq⟩ := hpre
  have hself := hq cid (by omega)
  cases hcw : getComp w cid with
  | none => exact Or.inl (by rw [run, hcw])
  | some c =>
    cases c with
    | const b =>
      right
      refine ⟨w, Tristate.low, by rw [run, hcw], ?_, hq, fun e he hr => rfl, fun e hd => hd⟩
      cases hself with
      | inl hfr =>
        have hfr' : getComp w cid = getComp w₀ cid := hfr
        have h0 : getComp w₀ cid = some (.const b) := hfr'.symm.trans hcw
        unfold Done
        rw [hcw, finalComp_const w₀ t rank cid b h0]
      | inr hd => exact hd
    | withPins kind cont =>
      have hdone_state : Done w₀ t rank w cid → cont.state = .available t := by
        intro hd
        have hd' : getComp w cid = some (finalComp w₀ t rank cid) := hd
        rw [hcw] at hd'
        cases hc0 : getComp w₀ cid with
        | none =>
          rw [finalComp_none w₀ t rank cid hc0] at hd'
          injection hd' with h
          cases h
        | some c0 =>
          cases c0 with
          | const b0 =>
            rw [finalComp_const w₀ t rank cid b0 hc0] at hd'
            injection hd' with h
            cases h
          | withPins k0 cont0 =>
            rw [finalComp_unfold w₀ t rank hranked cid k0 cont0 hc0] at hd'
            obtain ⟨kk, cc, hds, hst5, hruns5⟩ := driverSpec_fields k0
              { refreshPins (finalComp w₀ t rank) t cont0 with state := .available t }
            rw [hds] at hd'
            injection hd' with h
            injection h with h1 h2
            rw [h2, hst5]
      cases hself with
      | inr hd =>
        right
        refine ⟨w, Tristate.low, ?_, hd, hq, fun e he hr => rfl, fun e h => h⟩
        rw [run, hcw]
        simp [hdone_state hd]
      | inl hfr =>
        have hfr' : getComp w cid = getComp w₀ cid := hfr
        have hcw0 : getComp w₀ cid = some (.withPins kind cont) := hfr'.symm.trans hcw
        have hcl := (hclean cid kind cont hcw0).1
        have hrun_eq : run (f + 1) (.sim cid t) w =
            match run f (.allPins cid (cont.pins.map Prod.fst) t) (enterBody w cid t) with
            | none => none
            | some (w2, _) =>
              match run f (.drv cid) w2 with
              | none => none
              | some (w5, _) =>
                some (setContState w5 cid (.available t), Tristate.low) := by
          rw [run, hcw]
          simp only []
          cases hst2 : cont.state with
          | computing ct => exact absurd hst2 (hcl.1 ct)
          | neverComputed => simp
          | available at' =>
            have hne : PinState.available at' ≠ PinState.available t := by
              rw [← hst2]
              exact hcl.2
            simp [hne]
        have hEe : ∀ e, e ≠ cid → getComp (enterBody w cid t) e = getComp w e := by
          intro e he
          unfold enterBody
          exact getComp_modComp_ne _ _ _ _ (Ne.symm he)
        have hE : getComp (enterBody w cid t) cid =
            some (.withPins kind
              { cont with state := .computing t, runs := cont.runs ++ [t] }) := by
          unfold enterBody
          rw [getComp_modComp_self, hcw]
          rfl
        have hq' : QuietB w₀ t rank (rank cid) (enterBody w cid t) := by
          refine QuietB_of_frame w₀ t rank (rank cid) w _
            (QuietB_mono w₀ t rank (rank cid) (rank cid + 1) w (by omega) hq) ?_
          intro e hlt
          refine hEe e ?_
          intro he
          rw [he] at hlt
          omega
        have hnodE : NodupC (enterBody w cid t) cid := by
          intro k c hc
          rw [hE] at hc
          injection hc with h
          injection h with h1 h2
          rw [← h2]
          exact hndp cid kind cont hcw0
        have hpinsE : ∀ p ∈ cont.pins.map Prod.fst,
            getInputPin (enterBody w cid t) cid p = getInputPin w₀ cid p ∨
            (∃ d₀, getInputPin w₀ cid p = some d₀ ∧
              getInputPin (enterBody w cid t) cid p =
                some (finalPinData w₀ t rank cid p)) := by
          intro p hp
          left
          rw [getInputPin_enterBody]
          exact getInputPin_congr w₀ w cid hfr' p
        rcases ihf (.allPins cid (cont.pins.map Prod.fst) t) (enterBody w cid t)
            ⟨rfl, hq', hnodE, hpinsE⟩ with
          hnA | ⟨w2, v2, hrA, ⟨hmap2, hq2, hframe2, hdp2⟩⟩
        · left
          rw [hrun_eq]
          simp only [hnA]
        · have hw2cid : getComp w2 cid =
              some (.withPins kind (refreshPins (finalComp w₀ t rank) t cont)) := by
            rw [hmap2, hE]
            simp only [Option.map_some']
            rw [multiUpd_refresh w₀ t rank cid kind cont hcw0
              (hndp cid kind cont hcw0)]
          rcases ihf (.drv cid) w2 ⟨kind, cont, hcw0, hw2cid⟩ with
            hnD | ⟨w5, v5, hrD, ⟨hframe5, hcomp5⟩⟩
          · left
            rw [hrun_eq]
            simp only [hrA, hnD]
          · have hw5cid : getComp w5 cid =
                some (driverSpec kind (refreshPins (finalComp w₀ t rank) t cont)) :=
              hcomp5 kind cont hcw0
            have hw1e : ∀ e, e ≠ cid →
                getComp (setContState w5 cid (.available t)) e = getComp w5 e := by
              intro e he
              unfold setContState
              exact getComp_modComp_ne _ _ _ _ (Ne.symm he)
            have hD1 : Done w₀ t rank (setContState w5 cid (.available t)) cid := by
              obtain ⟨kk, cc, hds, hst5, hruns5⟩ :=
                driverSpec_fields kind (refreshPins (finalComp w₀ t rank) t cont)
              have hx : driverSpec kind
                  { refreshPins (finalComp w₀ t rank) t cont with
                      state := PinState.available t } =
                  .withPins kk { cc with state := .available t } := by
                rw [← driverSpec_setState, hds]
              unfold Done setContState
              rw [getComp_modComp_self, hw5cid,
                finalComp_unfold w₀ t rank hranked cid kind cont hcw0, hx, hds]
              rfl
            have hq1 : QuietB w₀ t rank (rank cid + 1)
                (setContState w5 cid (.available t)) := by
              intro e hlt
              by_cases he : e = cid
              · rw [he]
                exact Or.inr hD1
              · have hge : getComp (setContState w5 cid (.available t)) e =
                    getComp w5 e := hw1e e he
                by_cases hre : rank e < rank cid
                · cases hq2 e hre with
                  | inl hfr2 =>
                    refine Or.inl ?_
                    have hfr2' : getComp w2 e = getComp w₀ e := hfr2
                    show getComp (setContState w5 cid (.available t)) e = getComp w₀ e
                    rw [hge, hframe5 e he]
                    exact hfr2'
                  | inr hd2 =>
                    refine Or.inr ?_
                    have hd2' : getComp w2 e = some (finalComp w₀ t rank e) := hd2
                    show getComp (setContState w5 cid (.available t)) e =
                      some (finalComp w₀ t rank e)
                    rw [hge, hframe5 e he]
                    exact hd2'
                · have hreq : rank cid ≤ rank e := by omega
                  have hgw : getComp (setContState w5 cid (.available t)) e =
                      getComp w e := by
                    rw [hge, hframe5 e he, hframe2 e he hreq, hEe e he]
                  cases hq e hlt with
                  | inl hfr0 =>
                    refine Or.inl ?_
                    have hfr0' : getComp w e = getComp w₀ e := hfr0
                    show getComp (setContState w5 cid (.available t)) e = getComp w₀ e
                    rw [hgw]
                    exact hfr0'
                  | inr hd0 =>
                    refine Or.inr ?_
                    have hd0' : getComp w e = some (finalComp w₀ t rank e) := hd0
                    show getComp (setContState w5 cid (.available t)) e =
                      some (finalComp w₀ t rank e)
                    rw [hgw]
                    exact hd0'
            right
            refine ⟨setContState w5 cid (.available t), Tristate.low, ?_, hD1, hq1,
              ?_, ?_⟩
            · rw [hrun_eq]
              simp only [hrA, hrD]
            · intro e he hre
              rw [hw1e e he, hframe5 e he, hframe2 e he hre, hEe e he]
            · intro e hde
              by_cases he : e = cid
              · rw [he]
                exact hD1
              · have hde' : getComp w e = some (finalComp w₀ t rank e) := hde
                have h1 : Done w₀ t rank (enterBody w cid t) e := by
                  show getComp (enterBody w cid t) e = some (finalComp w₀ t rank e)
                  rw [hEe e he]
                  exact hde'
                have h2 : getComp w2 e = some (finalComp w₀ t rank e) := hdp2 e he h1
                show getComp (setContState w5 cid (.available t)) e =
                  some (finalComp w₀ t rank e)
                rw [hw1e e he, hframe5 e he]
                exact h2

/-- The master invariant: on a clean, acyclic base world every request
either runs out of fuel or completes with the deterministic
postcondition. -/
theorem runM (w₀ : World) (t : Nat) (rank : Nat → Nat)
    (hclean : cleanAt w₀ t) (hranked : ranked rank w₀) (hndp : nodupPins w₀) :
    ∀ f, IH w₀ t rank f := by
  intro f
  induction f with
  | zero =>
    intro req w hpre
    exact Or.inl rfl
  | succ f' ihf =>
    intro req w hpre
    cases req with
    | sim cid tk =>
      obtain ⟨htk, hq⟩ := hpre
      cases htk
      exact step_sim w₀ t rank f' ihf hclean hranked hndp cid w ⟨rfl, hq⟩
    | allPins cid ps tk =>
      obtain ⟨htk, h2, h3, h4⟩ := hpre
      cases htk
      exact step_allPins w₀ t rank f' ihf cid ps w ⟨rfl, h2, h3, h4⟩
    | pinSim cid p tk =>
      obtain ⟨htk, h2, h3, h4⟩ := hpre
      cases htk
      exact step_pinSim w₀ t rank f' ihf hclean hranked cid p w ⟨rfl, h2, h3, h4⟩
    | agg cid p links tk acc =>
      obtain ⟨htk, h2, h3⟩ := hpre
      cases htk
      exact step_agg w₀ t rank f' ihf cid p links acc w ⟨rfl, h2, h3⟩
    | link l tk =>
      obtain ⟨htk, h2⟩ := hpre
      cases htk
      exact step_link w₀ t rank f' ihf l w ⟨rfl, h2⟩
    | cin cid p =>
      exact step_cin w₀ t rank f' cid p w hpre
    | drv cid =>
      exact step_drv w₀ t rank f' ihf cid w hpre

theorem foldSimulate_length (fuel : Nat) :
    ∀ (ord : List Nat) (t : Nat) (w w' : World),
      foldSimulate fuel ord t w = some w' → w'.length = w.length := by
  intro ord
  induction ord with
  | nil =>
    intro t w w' h
    rw [foldSimulate] at h
    injection h with h
    rw [← h]
  | cons cid rest ih =>
    intro t w w' h
    rw [foldSimulate] at h
    cases hs : Component.simulate fuel w cid t with
    | none => rw [hs] at h; cases h
    | some w1 =>
      rw [hs] at h
      have h1 : w1.length = w.length := by
        unfold Component.simulate at hs
        cases hr : run fuel (.sim cid t) w with
        | none => rw [hr] at hs; cases hs
        | some pr =>
          obtain ⟨wa, va⟩ := pr
          rw [hr] at hs
          simp only [Option.map_some'] at hs
          injection hs with hh
          rw [← hh]
          exact run_length fuel _ w wa va hr
      rw [ih t w1 w' h, h1]

/-- Through the component loop of `Circuit::simulate`, every component
stays untouched or finished, finished components stay finished, and every
visited component finishes. -/
theorem foldSimulate_inv (w₀ : World) (t : Nat) (rank : Nat → Nat) (fuel : Nat)
    (hclean : cleanAt w₀ t) (hranked : ranked rank w₀) (hndp : nodupPins w₀) :
    ∀ (ord : List Nat) (w : World),
      (∀ cid, Fresh w₀ w cid ∨ Done w₀ t rank w cid) →
      foldSimulate fuel ord t w = none ∨
      ∃ w', foldSimulate fuel ord t w = some w' ∧
        (∀ cid, Fresh w₀ w' cid ∨ Done w₀ t rank w' cid) ∧
        (∀ cid, Done w₀ t rank w cid → Done w₀ t rank w' cid) ∧
        (∀ cid ∈ ord, Done w₀ t rank w' cid) := by
  intro ord
  induction ord with
  | nil =>
    intro w hquiet
    right
    exact ⟨w, rfl, hquiet, fun cid h => h, fun cid h => absurd h (List.not_mem_nil cid)⟩
  | cons cid rest ih =>
    intro w hquiet
    have hqB : QuietB w₀ t rank (rank cid + 1) w := fun e _ => hquiet e
    rcases runM w₀ t rank hclean hranked hndp fuel (.sim cid t) w ⟨rfl, hqB⟩ with
      hn | ⟨w1, v, hr, ⟨hdone, hq1, hframe, hdp⟩⟩
    · left
      have hcs : Component.simulate fuel w cid t = none := by
        unfold Component.simulate
        rw [hn]
        rfl
      rw [foldSimulate]
      simp only [hcs]
    · have hcs : Component.simulate fuel w cid t = some w1 := by
        unfold Component.simulate
        rw [hr]
        rfl
      have hquiet1 : ∀ e, Fresh w₀ w1 e ∨ Done w₀ t rank w1 e := by
        intro e
        by_cases he : e = cid
        · rw [he]
          exact Or.inr hdone
        · by_cases hre : rank e ≤ rank cid
          · exact hq1 e (by omega)
          · have hfr : getComp w1 e = getComp w e := hframe e he (by omega)
            cases hquiet e with
            | inl h =>
              refine Or.inl ?_
              show getComp w1 e = getComp w₀ e
              rw [hfr]
              exact h
            | inr h =>
              refine Or.inr ?_
              show getComp w1 e = some (finalComp w₀ t rank e)
              rw [hfr]
              exact h
      rcases ih w1 hquiet1 with hnR | ⟨w', hfR, hq', hdp', hdoneAll⟩
      · left
        rw [foldSimulate]
        simp only [hcs]
        exact hnR
      · right
        refine ⟨w', ?_, hq', ?_, ?_⟩
        · rw [foldSimulate]
          simp only [hcs]
          exact hfR
        · intro e hde
          exact hdp' e (hdp e hde)
        · intro e he
          cases List.mem_cons.mp he with
          | inl h =>
            rw [h]
            exact hdp' cid hdone
          | inr h => exact hdoneAll e h

theorem mem_of_getComp (w : World) (cid : Nat) (c : Comp)
    (h : getComp w cid = some c) : c ∈ w := by
  have h' : w[cid]? = some c := h
  rw [List.getElem?_eq_some] at h'
  obtain ⟨hlt, hg⟩ := h'
  rw [← hg]
  exact List.getElem_mem hlt

/-- Decidable check that one per-tick state is not tick-`t` state. -/
def stateClean (t : Nat) : PinState → Bool
  | .computing _ => false
  | .available u => u != t
  | .neverComputed => true

/-- Decidable check of `cleanAt` for one container. -/
def contClean (t : Nat) (cont : Container) : Bool :=
  stateClean t cont.state &&
    cont.pins.all fun pr =>
      match pr.2 with
      | .uInput d => stateClean t d.input_state
      | _ => true

/-- Decidable check of `cleanAt` for a whole world. -/
def worldClean (t : Nat) (w : World) : Bool :=
  w.all fun c =>
    match c with
    | .withPins _ cont => contClean t cont
    | _ => true

theorem stateClean_not_computing (t : Nat) (st : PinState)
    (h : stateClean t st = true) : ∀ ct, st ≠ .computing ct := by
  intro ct he
  rw [he] at h
  simp [stateClean] at h

theorem stateClean_not_available (t : Nat) (st : PinState)
    (h : stateClean t st = true) : st ≠ .available t := by
  intro he
  rw [he] at h
  simp [stateClean] at h

theorem cleanAt_of_worldClean (w : World) (t : Nat)
    (h : worldClean t w = true) : cleanAt w t := by
  intro cid k cont hc
  have hmem : Comp.withPins k cont ∈ w := mem_of_getComp _ _ _ hc
  have hcl := List.all_eq_true.mp h _ hmem
  simp only [] at hcl
  unfold contClean at hcl
  rw [Bool.and_eq_true] at hcl
  obtain ⟨hstate, hpins⟩ := hcl
  refine ⟨⟨stateClean_not_computing t _ hstate, stateClean_not_available t _ hstate⟩, ?_⟩
  intro pr hpr n d hprd
  have hall := List.all_eq_true.mp hpins pr hpr
  rw [hprd] at hall
  simp only [] at hall
  exact ⟨stateClean_not_computing t _ hall, stateClean_not_available t _ hall⟩

/-- Decidable check of `ranked` for one pin slot of component `cid`. -/
def slotRanked (rank : Nat → Nat) (cid : Nat) : Nat × PinSlot → Bool
  | (_, .uInput d) => d.links.all fun l => decide (rank l.component < rank cid)
  | _ => true

/-- Decidable check of `ranked` for a whole world. -/
def rankedB (rank : Nat → Nat) (w : World) : Bool :=
  (List.range w.length).all fun cid =>
    match w[cid]? with
    | some (.withPins _ cont) => cont.pins.all (slotRanked rank cid)
    | _ => true

theorem ranked_of_rankedB (rank : Nat → Nat) (w : World)
    (h : rankedB rank w = true) : ranked rank w := by
  intro cid k cont hc pr hpr n d hprd l hl
  have hlt : cid < w.length := by
    by_contra hge
    have : getComp w cid = none := List.getElem?_eq_none (by omega)
    rw [this] at hc
    cases hc
  have hm := List.all_eq_true.mp h cid (List.mem_range.mpr hlt)
  have hc' : w[cid]? = some (.withPins k cont) := hc
  rw [hc'] at hm
  simp only [] at hm
  have hs := List.all_eq_true.mp hm pr hpr
  rw [hprd] at hs
  unfold slotRanked at hs
  simp only [] at hs
  have := List.all_eq_true.mp hs l hl
  simpa using this

/-- Decidable check of `nodupPins`. -/
def nodupPinsB (w : World) : Bool :=
  w.all fun c =>
    match c with
    | .withPins _ cont => decide (cont.pins.map Prod.fst).Nodup
    | _ => true

theorem nodupPins_of_nodupPinsB (w : World) (h : nodupPinsB w = true) :
    nodupPins w := by
  intro cid k cont hc
  have hmem : Comp.withPins k cont ∈ w := mem_of_getComp _ _ _ hc
  have := List.all_eq_true.mp h _ hmem
  simpa using this

/-- Decidable check that an iteration order visits every component. -/
def coversB (w : World) (ord : List Nat) : Bool :=
  (List.range w.length).all fun cid => decide (cid ∈ ord)

theorem covers_of_coversB (w : World) (ord : List Nat)
    (h : coversB w ord = true) : ∀ cid, cid < w.length → cid ∈ ord := by
  intro cid hlt
  have := List.all_eq_true.mp h cid (List.mem_range.mpr hlt)
  simpa using this

/-- C8 (amended): for a circuit whose link graph is acyclic — witnessed by
a rank function under which every link points strictly downward — and
whose world carries no tick-`t` state, any two completed `Circuit::simulate`
runs that iterate over the top-level components in different orders, each
visiting every component, produce identical circuits, so every subsequent
`get_input` and `get_output` result is identical.  (The unrestricted claim
is refuted by `c8_counterexample`: with a cyclic circuit the iteration
order is observable.) -/
theorem c8_order_invariance_acyclic (c : Circuit) (rank : Nat → Nat) (fuel : Nat)
    (ord1 ord2 : List Nat)
    (hclean : cleanAt c.world (c.current_tick + 1))
    (hranked : ranked rank c.world) (hndp : nodupPins c.world)
    (hcov1 : ∀ cid, cid < c.world.length → cid ∈ ord1)
    (hcov2 : ∀ cid, cid < c.world.length → cid ∈ ord2)
    (c1 c2 : Circuit)
    (h1 : Circuit.simulate fuel ord1 c = some c1)
    (h2 : Circuit.simulate fuel ord2 c = some c2) :
    c1 = c2 ∧ (∀ name, c1.get_input name = c2.get_input name) ∧
      (∀ name, c1.get_output name = c2.get_output name) := by
  have key : ∀ (ord : List Nat) (c' : Circuit),
      (∀ cid, cid < c.world.length → cid ∈ ord) →
      Circuit.simulate fuel ord c = some c' →
      c'.current_tick = c.current_tick + 1 ∧ c'.names = c.names ∧
      ∀ n, getComp c'.world n =
        if n < c.world.length
        then some (finalComp c.world (c.current_tick + 1) rank n)
        else none := by
    intro ord c' hcov hs
    unfold Circuit.simulate at hs
    cases hf : foldSimulate fuel ord (c.current_tick + 1) c.world with
    | none =>
      rw [hf] at hs
      cases hs
    | some w' =>
      rw [hf] at hs
      injection hs with hs
      rw [← hs]
      refine ⟨rfl, rfl, ?_⟩
      have hquiet0 : ∀ cid, Fresh c.world c.world cid ∨
          Done c.world (c.current_tick + 1) rank c.world cid :=
        fun cid => Or.inl rfl
      rcases foldSimulate_inv c.world (c.current_tick + 1) rank fuel
          hclean hranked hndp ord c.world hquiet0 with
        hn | ⟨w'', hf2, hq, hdp, hall⟩
      · rw [hn] at hf
        cases hf
      · rw [hf] at hf2
        injection hf2 with he
        intro n
        by_cases hlt : n < c.world.length
        · rw [if_pos hlt]
          have hd := hall n (hcov n hlt)
          rw [← he] at hd
          exact hd
        · rw [if_neg hlt]
          have hlen := foldSimulate_length fuel ord _ _ _ hf
          show w'[n]? = none
          exact List.getElem?_eq_none (by omega)
  obtain ⟨ht1, hn1, hw1⟩ := key ord1 c1 hcov1 h1
  obtain ⟨ht2, hn2, hw2⟩ := key ord2 c2 hcov2 h2
  have hw : c1.world = c2.world := by
    refine List.ext_getElem? ?_
    intro n
    have e1 : c1.world[n]? = getComp c1.world n := rfl
    have e2 : c2.world[n]? = getComp c2.world n := rfl
    rw [e1, e2, hw1 n, hw2 n]
  have hc : c1 = c2 := by
    obtain ⟨t1, ns1, w1⟩ := c1
    obtain ⟨t2, ns2, w2⟩ := c2
    simp only [Circuit.mk.injEq]
    exact ⟨ht1.trans ht2.symm, hn1.trans hn2.symm, hw⟩
  exact ⟨hc, fun name => by rw [hc], fun name => by rw [hc]⟩

/-- An acyclic two-component circuit: a clock (id 0, pending HIGH) feeding
an output component (id 1) through one link. -/
def c8aWorld : World :=
  [ freshClock (some Tristate.high),
    .withPins (.outputComp Tristate.default)
      { pins := [(1, freshInput [⟨0, 1⟩])], state := .neverComputed, runs := [] } ]

def c8aCircuit : Circuit :=
  { current_tick := 0, names := [("in", 0), ("out", 1)], world := c8aWorld }

/-- The unique tick-1 result of simulating `c8aCircuit`, in any order. -/
def c8aRes : Circuit :=
  { current_tick := 1,
    names := [("in", 0), ("out", 1)],
    world := [
      .withPins (.clock none)
        { pins := [(1, .uOutput Tristate.high)], state := .available 1, runs := [1] },
      .withPins (.outputComp Tristate.high)
        { pins := [(1, .uInput { input_value := Tristate.high,
                                 input_state := .available 1,
                                 links := [⟨0, 1⟩] })],
          state := .available 1, runs := [1] } ] }

set_option maxRecDepth 10000 in
/-- Witness for `c8_order_invariance_acyclic`: on the concrete acyclic
clock→output circuit, the orders `[0, 1]` and `[1, 0]` both complete and
agree on everything. -/
theorem c8_order_invariance_acyclic_witness :
    ∃ c1 c2, Circuit.simulate 20 [0, 1] c8aCircuit = some c1 ∧
      Circuit.simulate 20 [1, 0] c8aCircuit = some c2 ∧
      (c1 = c2 ∧ (∀ name, c1.get_input name = c2.get_input name) ∧
        (∀ name, c1.get_output name = c2.get_output name)) := by
  have h1 : Circuit.simulate 20 [0, 1] c8aCircuit = some c8aRes := by decide
  have h2 : Circuit.simulate 20 [1, 0] c8aCircuit = some c8aRes := by decide
  exact ⟨c8aRes, c8aRes, h1, h2,
    c8_order_invariance_acyclic c8aCircuit (fun cid => cid) 20 [0, 1] [1, 0]
      (cleanAt_of_worldClean _ _ (by decide))
      (ranked_of_rankedB _ _ (by decide))
      (nodupPins_of_nodupPinsB _ (by decide))
      (covers_of_coversB _ _ (by decide))
      (covers_of_coversB _ _ (by decide))
      c8aRes c8aRes h1 h2⟩
